import Mathlib

/-!
Verification of the BLE audio receiver (src/receive.py).

The development shallowly embeds the algorithmic core of
XiaoAudioReceiver: the CRC-16/CCITT checksum, the packet parser and the
notification handler (receive.py lines 54-258), the reorder-buffer
drain/cleanup routine process_buffered_packets (lines 163-176), and the
driving loop of download_file (lines 260-346).

Modelling conventions:
  - bytes are Nat (frames delivered by the transport are byte lists);
  - the Python dict packet_buffer is modelled as an association list
    List (Nat × List Nat); reachable states keep it strictly sorted by
    key, which realises exactly the finite-map semantics the source
    relies on (membership, pop, del, len, min, sorted(keys));
  - the explicit sorted(...) calls of the source are modelled by an
    insertion sort, min(...) by a fold;
  - awaits on the transport (send_credits, start_notify, stop_notify)
    are modelled as their state effects: credits_sent accumulation and a
    counter of stop_notify invocations; the CRC-error report printed at
    line 212 is modelled by the crc_error_count field;
  - wall-clock time is an input: each driving-loop iteration receives
    the elapsed time (a rational) it observes; the float comparison
    progress >= 99.0 is modelled exactly over the integers.
-/

set_option autoImplicit false

/-- Receiver state: the mutable fields of XiaoAudioReceiver that the
packet path touches (receive.py lines 38-52).  crc_error_count models
the CRC-mismatch report of line 212. -/
structure ReceiverState where
  received_data : List Nat
  expected_seq : Nat
  total_packets : Nat
  credits_sent : Nat
  file_transfer_complete : Bool
  packet_buffer : List (Nat × List Nat)
  max_buffer_size : Nat
  crc_error_count : Nat
  deriving Repr, DecidableEq

/-- The reorder buffer: seq -> payload, as an association list. -/
abbrev Buf := List (Nat × List Nat)

/-- Dict lookup: first entry with the given key (keys of reachable
buffers are distinct). -/
def bufFind (k : Nat) : Buf → Option (List Nat)
  | [] => none
  | (k', v) :: t => if k = k' then some v else bufFind k t

/-- Dict membership test, receive.py lines 165 and 230. -/
def bufMem (k : Nat) (b : Buf) : Bool := (bufFind k b).isSome

/-- Dict pop/del of one key (receive.py lines 166 and 175). -/
def bufErase (k : Nat) : Buf → Buf
  | [] => []
  | (k', v) :: t => if k = k' then t else (k', v) :: bufErase k t

/-- Dict insert (receive.py line 231), keeping the association list
sorted by key so that it denotes the underlying finite map. -/
def bufInsert (k : Nat) (v : List Nat) : Buf → Buf
  | [] => [(k, v)]
  | (k', v') :: t =>
    if k < k' then (k, v) :: (k', v') :: t
    else if k = k' then (k, v) :: t
    else (k', v') :: bufInsert k v t

/-- Key list of the buffer. -/
def bufKeys (b : Buf) : List Nat := b.map Prod.fst

/-- Python min(keys) (receive.py line 314); only used on nonempty
buffers. -/
def bufMinKey (b : Buf) : Nat :=
  match bufKeys b with
  | [] => 0
  | k :: t => t.foldl Nat.min k

/-- Insert a value into a sorted list (helper for sortNat). -/
def insSorted (a : Nat) : List Nat → List Nat
  | [] => [a]
  | b :: t => if a ≤ b then a :: b :: t else b :: insSorted a t

/-- Python sorted(...) on a list of keys (receive.py lines 173, 237). -/
def sortNat : List Nat → List Nat
  | [] => []
  | a :: t => insSorted a (sortNat t)

/-- Delete a list of keys from the buffer (the del loop of receive.py
lines 174-175). -/
def bufEraseMany (ks : List Nat) (b : Buf) : Buf :=
  ks.foldl (fun b k => bufErase k b) b

/-- One shift round of the CRC inner loop (receive.py lines 60-63). -/
def crcRound (crc : Nat) : Nat :=
  if crc &&& 0x8000 ≠ 0 then ((crc <<< 1) ^^^ 0x1021) &&& 0xFFFF
  else (crc <<< 1) &&& 0xFFFF

/-- Eight CRC shift rounds (the inner for of receive.py line 59). -/
def crcRounds : Nat → Nat → Nat
  | 0, c => c
  | n + 1, c => crcRounds n (crcRound c)

/-- CRC16-CCITT over the payload, polynomial 0x1021, initial value
0xFFFF, MSB first (receive.py lines 54-64). -/
def crc16_ccitt (data : List Nat) : Nat :=
  data.foldl (fun crc b => crcRounds 8 (crc ^^^ (b <<< 8))) 0xFFFF

/-- Little-endian u16 at byte offset i (struct.unpack of receive.py
lines 194-195). -/
def u16le (data : List Nat) (i : Nat) : Nat :=
  data.getD i 0 + 256 * data.getD (i + 1) 0

/-- Little-endian u32 at byte offset 0 (struct.unpack of receive.py
line 193). -/
def u32le (data : List Nat) : Nat :=
  data.getD 0 0 + 256 * data.getD 1 0 + 65536 * data.getD 2 0 +
    16777216 * data.getD 3 0

/-- The while loop of process_buffered_packets (receive.py lines
165-168): repeatedly pop expected_seq from the buffer and append its
payload.  Each iteration removes one entry, so the loop of the source
makes at most (buffer size) pops; fuel (size + 1) is never exhausted. -/
def drainGo : Nat → Nat → Buf → List Nat → Nat × Buf × List Nat
  | 0, e, buf, out => (e, buf, out)
  | fuel + 1, e, buf, out =>
    match bufFind e buf with
    | none => (e, buf, out)
    | some payload => drainGo fuel (e + 1) (bufErase e buf) (out ++ payload)

/-- process_buffered_packets (receive.py lines 163-176): drain the
contiguous run starting at expected_seq, then evict the lowest keys if
the buffer exceeds max_buffer_size. -/
def processBufferedPackets (st : ReceiverState) : ReceiverState :=
  let r := drainGo (st.packet_buffer.length + 1) st.expected_seq
      st.packet_buffer st.received_data
  let buf := r.2.1
  let buf' :=
    if buf.length > st.max_buffer_size then
      bufEraseMany
        ((sortNat (bufKeys buf)).take (buf.length - st.max_buffer_size / 2)) buf
    else buf
  { st with expected_seq := r.1, packet_buffer := buf', received_data := r.2.2 }

/-- Lines 215-258 of receive.py, processing a validated data packet:
count it, handle ordering (stale return / in-order drain / out-of-order
buffering with large-gap skip), and grant the 2-credit cadence on the
paths that reach line 257 (the stale return at line 220 does not).
creditWrap is the credit cadence of lines 257-258. -/
def creditWrap (st3 : ReceiverState) : ReceiverState :=
  if st3.total_packets % 2 = 0 then
    { st3 with credits_sent := st3.credits_sent + 2 }
  else st3

/-- The ordering logic of receive.py lines 217-243 applied to a counted
packet: stale return, in-order drain, or out-of-order buffering with
large-gap skip. -/
def handleOrdering (st2 : ReceiverState) (seq : Nat) (payload : List Nat) :
    ReceiverState :=
  if seq = st2.expected_seq then
    processBufferedPackets
      { st2 with
        received_data := st2.received_data ++ payload,
        expected_seq := st2.expected_seq + 1 }
  else
    if bufMem seq st2.packet_buffer then st2
    else
      let st2' :=
        { st2 with packet_buffer := bufInsert seq payload st2.packet_buffer }
      if seq - st2'.expected_seq > 50 then
        match sortNat ((bufKeys st2'.packet_buffer).filter
            (fun s => decide (st2'.expected_seq ≤ s))) with
        | [] => st2'
        | next :: _ =>
          processBufferedPackets { st2' with expected_seq := next }
      else st2'

def handleValidated (st : ReceiverState) (seq : Nat) (payload : List Nat) :
    ReceiverState :=
  let st2 := { st with total_packets := st.total_packets + 1 }
  if seq < st2.expected_seq then st2
  else creditWrap (handleOrdering st2 seq payload)

/-- notification_handler (receive.py lines 186-258) as a pure state
transformer on one raw frame.  The progress print (lines 245-253) has
no algorithmic effect and is not modelled; send_credits is modelled as
its effect on credits_sent. -/
def notification_handler (st : ReceiverState) (data : List Nat) : ReceiverState :=
  if data.length < 8 then st
  else
    let seq := u32le data
    let length := u16le data 4
    let crc_received := u16le data 6
    let payload := (data.drop 8).take length
    if length = 0 ∧ crc_received = 0 then
      { st with file_transfer_complete := true }
    else if payload.length ≠ length then st
    else
      let st1 :=
        if crc_received ≠ crc16_ccitt payload then
          { st with crc_error_count := st.crc_error_count + 1 }
        else st
      handleValidated st1 seq payload

/-- A freshly constructed / freshly reset receiver (receive.py lines
38-52 and 263-271). -/
def initState : ReceiverState :=
  { received_data := [], expected_seq := 0, total_packets := 0,
    credits_sent := 0, file_transfer_complete := false, packet_buffer := [],
    max_buffer_size := 100, crc_error_count := 0 }

/-- Receiver state at entry of the download loop: reset state after the
initial burst of 64 credits (receive.py line 278). -/
def startState : ReceiverState := { initState with credits_sent := 64 }

/-- Little-endian encoding of a u16 field. -/
def enc16 (n : Nat) : List Nat := [n % 256, n / 256 % 256]

/-- Little-endian encoding of a u32 field. -/
def enc32 (n : Nat) : List Nat :=
  [n % 256, n / 256 % 256, n / 65536 % 256, n / 16777216 % 256]

/-- A raw frame with the wire layout [seq32|len16|crc16|payload]. -/
def mkFrameRaw (seq len crc : Nat) (payload : List Nat) : List Nat :=
  enc32 seq ++ enc16 len ++ enc16 crc ++ payload

/-- A well-formed data frame: declared length and checksum both match
the payload. -/
def mkDataFrame (seq : Nat) (payload : List Nat) : List Nat :=
  mkFrameRaw seq payload.length (crc16_ccitt payload) payload

/-- Local state of the download_file driving loop (receive.py lines
283-284). -/
structure LoopSt where
  st : ReceiverState
  lastReceived : Nat
  stallCount : Nat
  deriving Repr, DecidableEq

/-- Result of one body of the driving loop (receive.py lines 289-327):
continue looping, break toward the normal exit (lines 291, 301), or
return False at the hard timeout (line 327). -/
inductive TickResult where
  | contin (ls : LoopSt)
  | exitComplete (st : ReceiverState)
  | exitTimeout (st : ReceiverState)
  deriving Repr, DecidableEq

/-- Receiver state carried by a tick result. -/
def TickResult.state : TickResult → ReceiverState
  | .contin ls => ls.st
  | .exitComplete st => st
  | .exitTimeout st => st

/-- The stall-recovery action of the driving loop (receive.py lines
303-318): grant 32 extra credits, and if the buffer is nonempty and its
minimum key is within 10 of expected_seq, advance expected_seq to that
minimum and drain. -/
def stallRecover (st : ReceiverState) : ReceiverState :=
  let st1 : ReceiverState := { st with credits_sent := st.credits_sent + 32 }
  if st1.packet_buffer = [] then st1
  else
    if (bufMinKey st1.packet_buffer : Int) - (st1.expected_seq : Int) ≤ 10 then
      processBufferedPackets { st1 with expected_seq := bufMinKey st1.packet_buffer }
    else st1

/-- One post-sleep body of the driving loop (receive.py lines 289-327).
The elapsed wall time this iteration observes at line 324 is the input
t.  The float comparison progress >= 99.0 of line 299 is modelled
exactly: with file_size > 0 it is 99 * file_size <= 100 * bytes. -/
def tickBody (fileSize : Nat) (t : ℚ) (ls : LoopSt) : TickResult :=
  if ls.st.file_transfer_complete then .exitComplete ls.st
  else
    let len := ls.st.received_data.length
    let r : ReceiverState × Nat × Nat × Bool :=
      if len = ls.lastReceived then
        let sc := ls.stallCount + 1
        if sc > 20 then
          if 0 < fileSize ∧ 99 * fileSize ≤ 100 * len then
            (ls.st, ls.lastReceived, sc, true)
          else (stallRecover ls.st, ls.lastReceived, 0, false)
        else (ls.st, ls.lastReceived, sc, false)
      else (ls.st, len, 0, false)
    if r.2.2.2 then .exitComplete r.1
    else if t > 60 ∧ r.1.received_data.length = 0 then .exitTimeout r.1
    else .contin ⟨r.1, r.2.1, r.2.2.1⟩

/-- An event observed by the session: a raw frame delivered during the
asyncio sleep, or one driving-loop iteration observing elapsed wall
time t. -/
inductive Ev where
  | pkt (data : List Nat)
  | tick (t : ℚ)
  deriving Repr, DecidableEq

/-- Terminal status of a run of the driving loop. -/
inductive Outcome where
  | completed
  | timedOut
  | running
  deriving Repr, DecidableEq

/-- Result of driving the loop over a finite event list: the outcome,
the final receiver state, and how many times stop_notify was invoked
(receive.py line 330 on the normal exit; the timeout return at line 327
never reaches it). -/
structure RunResult where
  outcome : Outcome
  state : ReceiverState
  stopNotify : Nat
  deriving Repr, DecidableEq

/-- The while condition of receive.py line 286. -/
def loopCond (fileSize : Nat) (st : ReceiverState) : Bool :=
  decide (st.received_data.length < fileSize) && !st.file_transfer_complete

/-- download_file's driving loop (receive.py lines 286-330) over an
event list.  needCheck records whether the while condition is due: it
is checked once per iteration, before the sleep during which packet
events arrive; packets are handled by notification_handler as they
come.  Exhausting the events while the loop would still run yields the
non-terminal Outcome.running. -/
def runLoop (fileSize : Nat) : LoopSt → Bool → List Ev → RunResult
  | ls, nc, [] =>
    if nc && !loopCond fileSize ls.st then ⟨.completed, ls.st, 1⟩
    else ⟨.running, ls.st, 0⟩
  | ls, nc, ev :: rest =>
    if nc && !loopCond fileSize ls.st then ⟨.completed, ls.st, 1⟩
    else
      match ev with
      | .pkt d => runLoop fileSize ⟨notification_handler ls.st d, ls.lastReceived, ls.stallCount⟩ false rest
      | .tick t =>
        match tickBody fileSize t ls with
        | .contin ls' => runLoop fileSize ls' true rest
        | .exitComplete st => ⟨.completed, st, 1⟩
        | .exitTimeout st => ⟨.timedOut, st, 0⟩

/-- A whole download session (receive.py lines 260-330): reset state,
initial 64-credit burst, then the driving loop. -/
def downloadRun (fileSize : Nat) (evs : List Ev) : RunResult :=
  runLoop fileSize ⟨startState, 0, 0⟩ true evs

/-- Modelled from the spec: least n >= start that fails K, found by
linear search with the given fuel (enough fuel is supplied at use
sites). -/
def mexFrom (K : Nat → Bool) : Nat → Nat → Nat
  | 0, n => n
  | f + 1, n => if K n then mexFrom K f (n + 1) else n

/-- Modelled from the spec: the length of the contiguous prefix 0,1,2,…
of sequence numbers present in the arrival list (all arrivals are
assumed <= 50, so fuel 52 always suffices). -/
def mexL (arr : List Nat) : Nat := mexFrom (fun n => decide (n ∈ arr)) 52 0

/-- Modelled from the spec: the expected output stream, namely the
payloads of the contiguous arrived prefix 0,1,2,…, concatenated in
ascending sequence order. -/
def specOutput (arr : List Nat) (pay : Nat → List Nat) : List Nat :=
  (List.range (mexL arr)).flatMap pay

/-- Well-formed buffer: strictly ascending keys, the finite-map
representation every reachable state maintains. -/
def SortedBuf (b : Buf) : Prop := List.Pairwise (fun x y => x.1 < y.1) b

/-- A frame used by the overflow trace: sequence s, declared length 0,
checksum field 1 (not an EndMarker, accepted with empty payload). -/
def c2frame (s : Nat) : List Nat := mkFrameRaw s 0 1 []

/-- A 152-frame arrival order that leaves 101 entries in the reorder
buffer: 51 rounds that each buffer one far-ahead key (10000 + i) via the
large-gap path, followed by 50 near inserts that never trigger the
drain/cleanup routine. -/
def c2trace : List (List Nat) :=
  ((List.range 51).flatMap (fun i => [c2frame (2 * i + 1), c2frame (10000 + i)])) ++
    (List.range 50).map (fun j => c2frame (103 + j))

/-- Membership test of the reference model: the sequence numbers still
expected to sit in the reorder buffer after the arrivals in seen, i.e.
numbers that have arrived but lie at or beyond the contiguous prefix. -/
def seenK (seen : List Nat) (k : Nat) : Bool :=
  decide (k ∈ seen) && decide (mexL seen ≤ k)

/-- Reference-model invariant tying a receiver state to the multiset of
sequence numbers delivered so far: expected_seq is the least number not
yet arrived, the output is the payload concatenation of the contiguous
prefix, and the buffer holds exactly the arrived numbers past it. -/
def C1Inv (pay : Nat → List Nat) (seen : List Nat) (st : ReceiverState) : Prop :=
  st.expected_seq = mexL seen ∧
  st.received_data = (List.range (mexL seen)).flatMap pay ∧
  SortedBuf st.packet_buffer ∧
  (∀ k, bufFind k st.packet_buffer =
    if seenK seen k = true then some (pay k) else none) ∧
  st.max_buffer_size = 100

theorem crcRound_lt (c : Nat) : crcRound c < 65536 := by
  unfold crcRound
  split
  · exact Nat.lt_succ_of_le (Nat.and_le_right)
  · exact Nat.lt_succ_of_le (Nat.and_le_right)

theorem crcRounds_succ_lt (n c : Nat) : crcRounds (n + 1) c < 65536 := by
  induction n generalizing c with
  | zero => exact crcRound_lt c
  | succ m ih => exact ih (crcRound c)

theorem crc16_ccitt_lt (p : List Nat) : crc16_ccitt p < 65536 := by
  unfold crc16_ccitt
  have h : ∀ (l : List Nat) (c : Nat), c < 65536 →
      l.foldl (fun crc b => crcRounds 8 (crc ^^^ (b <<< 8))) c < 65536 := by
    intro l
    induction l with
    | nil => intro c hc; exact hc
    | cons b t ih => intro c _; exact ih _ (crcRounds_succ_lt 7 _)
  exact h p 0xFFFF (by norm_num)

theorem mkFrameRaw_length (s l c : Nat) (p : List Nat) :
    (mkFrameRaw s l c p).length = 8 + p.length := by
  simp [mkFrameRaw, enc32, enc16]
  omega

theorem mkFrameRaw_drop8 (s l c : Nat) (p : List Nat) :
    (mkFrameRaw s l c p).drop 8 = p := by
  simp [mkFrameRaw, enc32, enc16]

theorem u32le_mkFrameRaw (s l c : Nat) (p : List Nat) :
    u32le (mkFrameRaw s l c p) = s % 4294967296 := by
  simp only [u32le, mkFrameRaw, enc32, enc16, List.cons_append, List.nil_append,
    List.getD_cons_zero, List.getD_cons_succ]
  omega

theorem u16le_mkFrameRaw_len (s l c : Nat) (p : List Nat) :
    u16le (mkFrameRaw s l c p) 4 = l % 65536 := by
  simp only [u16le, mkFrameRaw, enc32, enc16, List.cons_append, List.nil_append,
    List.getD_cons_zero, List.getD_cons_succ]
  omega

theorem u16le_mkFrameRaw_crc (s l c : Nat) (p : List Nat) :
    u16le (mkFrameRaw s l c p) 6 = c % 65536 := by
  simp only [u16le, mkFrameRaw, enc32, enc16, List.cons_append, List.nil_append,
    List.getD_cons_zero, List.getD_cons_succ]
  omega

/-- C10: any frame of at least 8 bytes whose length field reads 0 and
whose checksum field reads 0 is treated as the EndMarker: the handler
sets file_transfer_complete and returns at once, regardless of trailing
bytes and before the length or checksum validation, leaving every other
field (including total_packets and credits_sent) unchanged. -/
theorem eof_marker_short_circuits (st : ReceiverState) (data : List Nat)
    (h8 : 8 ≤ data.length) (hlen : u16le data 4 = 0) (hcrc : u16le data 6 = 0) :
    notification_handler st data = { st with file_transfer_complete := true } := by
  unfold notification_handler
  rw [if_neg (by omega), hlen, hcrc]
  simp

/-- Witness for eof_marker_short_circuits: a 10-byte frame with zero
length and checksum fields and two trailing junk bytes completes the
transfer and changes nothing else. -/
theorem eof_marker_short_circuits_witness :
    8 ≤ ([1, 2, 3, 4, 0, 0, 0, 0, 9, 9] : List Nat).length ∧
    notification_handler initState [1, 2, 3, 4, 0, 0, 0, 0, 9, 9] =
      { initState with file_transfer_complete := true } :=
  ⟨by decide, eof_marker_short_circuits initState _ (by decide) (by decide) (by decide)⟩

/-- Counterexample to C7 as stated: a frame whose declared length (1)
does not match its actual trailing byte count (2) is nevertheless
accepted by the handler — the extra byte is ignored and the state
mutates (total_packets becomes 1, the first payload byte is output), so
such frames are not rejected. -/
theorem length_mismatch_rejection_cex :
    notification_handler initState
        (mkFrameRaw 0 1 (crc16_ccitt [65]) [65, 66]) ≠ initState ∧
    (notification_handler initState
        (mkFrameRaw 0 1 (crc16_ccitt [65]) [65, 66])).total_packets = 1 ∧
    (notification_handler initState
        (mkFrameRaw 0 1 (crc16_ccitt [65]) [65, 66])).received_data = [65] := by
  refine ⟨?_, by decide, by decide⟩
  decide

/-- C7 amended: a raw frame shorter than 8 bytes, or one whose declared
length field exceeds the number of trailing bytes actually present
(truncated payload), is discarded with no change whatsoever to the
receiver state; frames carrying more trailing bytes than declared are
not rejected. -/
theorem malformed_frame_discarded (st : ReceiverState) (data : List Nat) :
    (data.length < 8 → notification_handler st data = st) ∧
    (8 ≤ data.length → data.length < 8 + u16le data 4 →
      notification_handler st data = st) := by
  constructor
  · intro h
    unfold notification_handler
    rw [if_pos h]
  · intro h8 hshort
    unfold notification_handler
    rw [if_neg (by omega)]
    have hlen0 : u16le data 4 ≠ 0 := by omega
    rw [if_neg (by intro hc; exact hlen0 hc.1)]
    have hpl : ((data.drop 8).take (u16le data 4)).length ≠ u16le data 4 := by
      simp only [List.length_take, List.length_drop]
      omega
    rw [if_pos hpl]

/-- Witness for malformed_frame_discarded: a 3-byte frame and a
truncated frame (declared length 5, only 2 trailing bytes) both leave
the fresh state untouched. -/
theorem malformed_frame_discarded_witness :
    notification_handler initState [1, 2, 3] = initState ∧
    notification_handler initState (mkFrameRaw 0 5 3 [1, 2]) = initState :=
  ⟨(malformed_frame_discarded initState [1, 2, 3]).1 (by decide),
   (malformed_frame_discarded initState (mkFrameRaw 0 5 3 [1, 2])).2
     (by decide) (by decide)⟩

theorem pbp_total (st : ReceiverState) :
    (processBufferedPackets st).total_packets = st.total_packets := rfl

theorem pbp_credits (st : ReceiverState) :
    (processBufferedPackets st).credits_sent = st.credits_sent := rfl

theorem pbp_complete (st : ReceiverState) :
    (processBufferedPackets st).file_transfer_complete = st.file_transfer_complete := rfl

theorem pbp_crcc (st : ReceiverState) :
    (processBufferedPackets st).crc_error_count = st.crc_error_count := rfl

theorem pbp_max (st : ReceiverState) :
    (processBufferedPackets st).max_buffer_size = st.max_buffer_size := rfl

theorem creditWrap_received (st : ReceiverState) :
    (creditWrap st).received_data = st.received_data := by
  unfold creditWrap
  split <;> rfl

theorem creditWrap_expected (st : ReceiverState) :
    (creditWrap st).expected_seq = st.expected_seq := by
  unfold creditWrap
  split <;> rfl

theorem creditWrap_buffer (st : ReceiverState) :
    (creditWrap st).packet_buffer = st.packet_buffer := by
  unfold creditWrap
  split <;> rfl

theorem creditWrap_total (st : ReceiverState) :
    (creditWrap st).total_packets = st.total_packets := by
  unfold creditWrap
  split <;> rfl

theorem creditWrap_complete (st : ReceiverState) :
    (creditWrap st).file_transfer_complete = st.file_transfer_complete := by
  unfold creditWrap
  split <;> rfl

theorem creditWrap_crcc (st : ReceiverState) :
    (creditWrap st).crc_error_count = st.crc_error_count := by
  unfold creditWrap
  split <;> rfl

theorem creditWrap_max (st : ReceiverState) :
    (creditWrap st).max_buffer_size = st.max_buffer_size := by
  unfold creditWrap
  split <;> rfl

theorem creditWrap_credits (st : ReceiverState) :
    (creditWrap st).credits_sent =
      st.credits_sent + (if st.total_packets % 2 = 0 then 2 else 0) := by
  unfold creditWrap
  split <;> simp

theorem ho_total (st : ReceiverState) (q : Nat) (p : List Nat) :
    (handleOrdering st q p).total_packets = st.total_packets := by
  unfold handleOrdering
  dsimp only
  repeat' split
  all_goals simp [pbp_total]

theorem ho_credits (st : ReceiverState) (q : Nat) (p : List Nat) :
    (handleOrdering st q p).credits_sent = st.credits_sent := by
  unfold handleOrdering
  dsimp only
  repeat' split
  all_goals simp [pbp_credits]

theorem ho_complete (st : ReceiverState) (q : Nat) (p : List Nat) :
    (handleOrdering st q p).file_transfer_complete = st.file_transfer_complete := by
  unfold handleOrdering
  dsimp only
  repeat' split
  all_goals simp [pbp_complete]

theorem ho_crcc (st : ReceiverState) (q : Nat) (p : List Nat) :
    (handleOrdering st q p).crc_error_count = st.crc_error_count := by
  unfold handleOrdering
  dsimp only
  repeat' split
  all_goals simp [pbp_crcc]

theorem ho_max (st : ReceiverState) (q : Nat) (p : List Nat) :
    (handleOrdering st q p).max_buffer_size = st.max_buffer_size := by
  unfold handleOrdering
  dsimp only
  repeat' split
  all_goals simp [pbp_max]

theorem hv_crcc (st : ReceiverState) (seq : Nat) (p : List Nat) :
    (handleValidated st seq p).crc_error_count = st.crc_error_count := by
  unfold handleValidated
  dsimp only
  split
  · rfl
  · rw [creditWrap_crcc, ho_crcc]

theorem hv_complete (st : ReceiverState) (seq : Nat) (p : List Nat) :
    (handleValidated st seq p).file_transfer_complete = st.file_transfer_complete := by
  unfold handleValidated
  dsimp only
  split
  · rfl
  · rw [creditWrap_complete, ho_complete]

theorem hv_max (st : ReceiverState) (seq : Nat) (p : List Nat) :
    (handleValidated st seq p).max_buffer_size = st.max_buffer_size := by
  unfold handleValidated
  dsimp only
  split
  · rfl
  · rw [creditWrap_max, ho_max]

theorem hv_total (st : ReceiverState) (seq : Nat) (p : List Nat) :
    (handleValidated st seq p).total_packets = st.total_packets + 1 := by
  unfold handleValidated
  dsimp only
  split
  · rfl
  · rw [creditWrap_total, ho_total]

theorem creditWrap_crc_commute (st : ReceiverState) (c : Nat) :
    creditWrap { st with crc_error_count := c } =
      { creditWrap st with crc_error_count := c } := by
  unfold creditWrap
  dsimp only
  split <;> rfl

theorem ho_crc_commute (st : ReceiverState) (c q : Nat) (p : List Nat) :
    handleOrdering { st with crc_error_count := c } q p =
      { handleOrdering st q p with crc_error_count := c } := by
  unfold handleOrdering
  dsimp only
  by_cases h2 : q = st.expected_seq
  · rw [if_pos h2, if_pos h2]; rfl
  · rw [if_neg h2, if_neg h2]
    by_cases h3 : bufMem q st.packet_buffer
    · rw [if_pos h3, if_pos h3]
    · rw [if_neg h3, if_neg h3]
      by_cases h4 : 50 < q - st.expected_seq
      · rw [if_pos h4, if_pos h4]
        rcases hm : sortNat (List.filter (fun s => decide (st.expected_seq ≤ s))
            (bufKeys (bufInsert q p st.packet_buffer))) with _ | ⟨next, tail⟩ <;>
          dsimp only <;> rfl
      · rw [if_neg h4, if_neg h4]

theorem hv_crc_commute (st : ReceiverState) (c seq : Nat) (p : List Nat) :
    handleValidated { st with crc_error_count := c } seq p =
      { handleValidated st seq p with crc_error_count := c } := by
  unfold handleValidated
  dsimp only
  split
  · rfl
  · rw [show ({ st with crc_error_count := c, total_packets := st.total_packets + 1 }
        : ReceiverState) =
        { ({ st with total_packets := st.total_packets + 1 } : ReceiverState) with
          crc_error_count := c } from rfl,
      ho_crc_commute, creditWrap_crc_commute]


theorem handler_valid_frame (st : ReceiverState) (seq crc : Nat) (payload : List Nat)
    (hne : payload ≠ []) (hlen : payload.length < 65536) :
    notification_handler st (mkFrameRaw seq payload.length crc payload) =
      (if crc % 65536 ≠ crc16_ccitt payload then
        handleValidated { st with crc_error_count := st.crc_error_count + 1 }
          (seq % 4294967296) payload
      else handleValidated st (seq % 4294967296) payload) := by
  unfold notification_handler
  rw [if_neg (by rw [mkFrameRaw_length]; omega)]
  rw [u32le_mkFrameRaw, u16le_mkFrameRaw_len, u16le_mkFrameRaw_crc, mkFrameRaw_drop8]
  rw [Nat.mod_eq_of_lt hlen]
  dsimp only
  rw [List.take_length]
  have hne' : payload.length ≠ 0 := by
    intro h
    exact hne (List.length_eq_zero.mp h)
  rw [if_neg (by intro hc; exact hne' hc.1), if_neg (by simp)]
  split <;> rfl

/-- C8: a validated non-EndMarker packet whose received checksum field
differs from the CRC-16/CCITT-FALSE of its payload is processed exactly
like the same packet with the correct checksum — same output, ordering
and credit effects — except that the mismatch is recorded as one
data-integrity event (crc_error_count). -/
theorem crc_mismatch_still_processed (st : ReceiverState) (seq crc : Nat)
    (payload : List Nat) (hne : payload ≠ []) (hlen : payload.length < 65536)
    (hmis : crc % 65536 ≠ crc16_ccitt payload) :
    notification_handler st (mkFrameRaw seq payload.length crc payload) =
      { notification_handler st (mkDataFrame seq payload) with
        crc_error_count :=
          (notification_handler st (mkDataFrame seq payload)).crc_error_count + 1 } := by
  rw [handler_valid_frame st seq crc payload hne hlen, if_pos hmis]
  rw [show mkDataFrame seq payload =
      mkFrameRaw seq payload.length (crc16_ccitt payload) payload from rfl]
  rw [handler_valid_frame st seq (crc16_ccitt payload) payload hne hlen,
    if_neg (by rw [Nat.mod_eq_of_lt (crc16_ccitt_lt payload)]; simp)]
  rw [hv_crc_commute, hv_crcc]

/-- Witness for crc_mismatch_still_processed: a frame for payload
[1, 2, 3] carrying checksum 0 (the true CRC is 44461) is admitted just
like the correct frame, with one extra recorded CRC error. -/
theorem crc_mismatch_still_processed_witness :
    notification_handler initState (mkFrameRaw 7 3 0 [1, 2, 3]) =
      { notification_handler initState (mkDataFrame 7 [1, 2, 3]) with
        crc_error_count :=
          (notification_handler initState (mkDataFrame 7 [1, 2, 3])).crc_error_count + 1 } :=
  crc_mismatch_still_processed initState 7 0 [1, 2, 3] (by decide) (by decide) (by decide)

/-- C3: evaluation of the session at the timeout path.  When no data
arrives and a driving-loop sample observes more than 60 seconds
elapsed, download_file returns failure from inside the loop (receive.py
line 327) without ever reaching the stop_notify call at line 330, so
the subscription is released zero times, not once; the normal
completion path (EndMarker) does release it exactly once. -/
theorem stop_notify_skipped_on_timeout :
    (downloadRun 100 [Ev.tick 61]).outcome = Outcome.timedOut ∧
    (downloadRun 100 [Ev.tick 61]).stopNotify = 0 ∧
    (downloadRun 100 [Ev.pkt (mkFrameRaw 0 0 0 []), Ev.tick 1]).outcome =
      Outcome.completed ∧
    (downloadRun 100 [Ev.pkt (mkFrameRaw 0 0 0 []), Ev.tick 1]).stopNotify = 1 := by
  decide

/-- Counterexample to C4 as stated: after 20 consecutive driving-loop
samples with bytes_received unchanged (file_size 1000, no data), the
session has not entered stall handling — it is still running and no
32-credit stall grant happened (credits_sent is still the initial 64);
only the 21st unchanged sample (stall_count > 20, receive.py line 296)
triggers it, raising credits_sent to 96. -/
theorem stall_after_20_samples_cex :
    (downloadRun 1000 (List.replicate 20 (Ev.tick 1))).outcome = Outcome.running ∧
    (downloadRun 1000 (List.replicate 20 (Ev.tick 1))).state.credits_sent = 64 ∧
    (downloadRun 1000 (List.replicate 21 (Ev.tick 1))).state.credits_sent = 96 := by
  decide

/-- Counterexample to C5 as stated: a session in which no payload byte
at all is received (only an EndMarker frame arrives) is observed by a
sample taken after 60 seconds, yet it terminates as completed rather
than timed out, because the completion check of receive.py line 290
precedes the timeout check of line 325. -/
theorem no_bytes_timeout_cex :
    (downloadRun 100 [Ev.pkt (mkFrameRaw 0 0 0 []), Ev.tick 61]).outcome =
      Outcome.completed ∧
    (downloadRun 100 [Ev.pkt (mkFrameRaw 0 0 0 []), Ev.tick 61]).state.received_data
      = [] := by
  decide

/-- Counterexample to C6 as stated: two validated packets are consumed
(total_packets = 2) but no 2-credit grant is emitted — the second
packet is a stale duplicate (seq 0 < expected_seq) and returns at
receive.py line 220 before the credit cadence of line 257, so
credits_sent stays at the initial 64 instead of 66. -/
theorem credit_cadence_cex :
    (downloadRun 100 [Ev.pkt (mkDataFrame 0 [1, 2, 3]),
        Ev.pkt (mkDataFrame 0 [1, 2, 3])]).state.total_packets = 2 ∧
    (downloadRun 100 [Ev.pkt (mkDataFrame 0 [1, 2, 3]),
        Ev.pkt (mkDataFrame 0 [1, 2, 3])]).state.credits_sent = 64 := by
  decide


theorem tickBody_complete (fileSize : Nat) (t : ℚ) (ls : LoopSt)
    (hc : ls.st.file_transfer_complete = true) :
    tickBody fileSize t ls = .exitComplete ls.st := by
  unfold tickBody
  rw [if_pos hc]

theorem tickBody_progress (fileSize : Nat) (t : ℚ) (ls : LoopSt)
    (hc : ls.st.file_transfer_complete = false)
    (hl : ls.st.received_data.length ≠ ls.lastReceived) :
    tickBody fileSize t ls =
      if t > 60 ∧ ls.st.received_data.length = 0 then .exitTimeout ls.st
      else .contin ⟨ls.st, ls.st.received_data.length, 0⟩ := by
  unfold tickBody
  rw [hc]
  dsimp only
  rw [if_neg (show ¬(false = true) by simp), if_neg hl]
  dsimp only
  rw [if_neg (show ¬(false = true) by simp)]

theorem tickBody_stall_small (fileSize : Nat) (t : ℚ) (ls : LoopSt)
    (hc : ls.st.file_transfer_complete = false)
    (hl : ls.st.received_data.length = ls.lastReceived)
    (hs : ls.stallCount < 20) :
    tickBody fileSize t ls =
      if t > 60 ∧ ls.st.received_data.length = 0 then .exitTimeout ls.st
      else .contin ⟨ls.st, ls.lastReceived, ls.stallCount + 1⟩ := by
  unfold tickBody
  rw [hc]
  dsimp only
  rw [if_neg (show ¬(false = true) by simp), if_pos hl,
    if_neg (show ¬(ls.stallCount + 1 > 20) by omega)]
  dsimp only
  rw [if_neg (show ¬(false = true) by simp)]

theorem tickBody_stall_accept (fileSize : Nat) (t : ℚ) (ls : LoopSt)
    (hc : ls.st.file_transfer_complete = false)
    (hl : ls.st.received_data.length = ls.lastReceived)
    (hs : ls.stallCount = 20)
    (hp : 0 < fileSize ∧ 99 * fileSize ≤ 100 * ls.st.received_data.length) :
    tickBody fileSize t ls = .exitComplete ls.st := by
  unfold tickBody
  rw [hc]
  dsimp only
  rw [if_neg (show ¬(false = true) by simp), if_pos hl,
    if_pos (show ls.stallCount + 1 > 20 by omega), if_pos hp]
  dsimp only
  rw [if_pos (show (true : Bool) = true from rfl)]

theorem tickBody_stall_recover (fileSize : Nat) (t : ℚ) (ls : LoopSt)
    (hc : ls.st.file_transfer_complete = false)
    (hl : ls.st.received_data.length = ls.lastReceived)
    (hs : ls.stallCount = 20)
    (hp : ¬(0 < fileSize ∧ 99 * fileSize ≤ 100 * ls.st.received_data.length)) :
    tickBody fileSize t ls =
      if t > 60 ∧ (stallRecover ls.st).received_data.length = 0 then
        .exitTimeout (stallRecover ls.st)
      else .contin ⟨stallRecover ls.st, ls.lastReceived, 0⟩ := by
  unfold tickBody
  rw [hc]
  dsimp only
  rw [if_neg (show ¬(false = true) by simp), if_pos hl,
    if_pos (show ls.stallCount + 1 > 20 by omega), if_neg hp]
  dsimp only
  rw [if_neg (show ¬(false = true) by simp)]

theorem stallRecover_credits (st : ReceiverState) :
    (stallRecover st).credits_sent = st.credits_sent + 32 := by
  unfold stallRecover
  dsimp only
  repeat' split
  all_goals simp [pbp_credits]

/-- C4 amended: stall handling is entered at the sample where the stall
counter, after incrementing, exceeds 20 — the 21st consecutive
0.5-second sample with bytes_received unchanged, not the 20th (below
the threshold a sample only increments the counter).  On entering: if
bytes_received / total_bytes >= 0.99 the session terminates as
accepted-complete; otherwise exactly 32 extra credits are granted, the
stall counter is reset, and if the minimum buffered sequence number is
within 10 of expected_seq, expected_seq advances to that minimum and
the buffer is drained. -/
theorem stall_transition_amended :
    (∀ (fileSize : Nat) (t : ℚ) (ls : LoopSt),
      ls.st.file_transfer_complete = false →
      ls.st.received_data.length = ls.lastReceived →
      ls.stallCount < 20 →
      ¬(t > 60 ∧ ls.st.received_data.length = 0) →
      tickBody fileSize t ls = .contin ⟨ls.st, ls.lastReceived, ls.stallCount + 1⟩) ∧
    (∀ (fileSize : Nat) (t : ℚ) (ls : LoopSt),
      ls.st.file_transfer_complete = false →
      ls.st.received_data.length = ls.lastReceived →
      ls.stallCount = 20 →
      0 < fileSize → 99 * fileSize ≤ 100 * ls.st.received_data.length →
      tickBody fileSize t ls = .exitComplete ls.st) ∧
    (∀ (fileSize : Nat) (t : ℚ) (ls : LoopSt),
      ls.st.file_transfer_complete = false →
      ls.st.received_data.length = ls.lastReceived →
      ls.stallCount = 20 →
      ¬(0 < fileSize ∧ 99 * fileSize ≤ 100 * ls.st.received_data.length) →
      (tickBody fileSize t ls).state.credits_sent = ls.st.credits_sent + 32 ∧
      (∀ ls', tickBody fileSize t ls = .contin ls' → ls'.stallCount = 0) ∧
      (ls.st.packet_buffer ≠ [] →
        (bufMinKey ls.st.packet_buffer : Int) - (ls.st.expected_seq : Int) ≤ 10 →
        (tickBody fileSize t ls).state =
          processBufferedPackets
            { ls.st with
              credits_sent := ls.st.credits_sent + 32,
              expected_seq := bufMinKey ls.st.packet_buffer })) := by
  refine ⟨?_, ?_, ?_⟩
  · intro fileSize t ls hc hl hs ht
    rw [tickBody_stall_small fileSize t ls hc hl hs, if_neg ht]
  · intro fileSize t ls hc hl hs hfs hp
    exact tickBody_stall_accept fileSize t ls hc hl hs ⟨hfs, hp⟩
  · intro fileSize t ls hc hl hs hp
    rw [tickBody_stall_recover fileSize t ls hc hl hs hp]
    refine ⟨?_, ?_, ?_⟩
    · split <;> simp [TickResult.state, stallRecover_credits]
    · intro ls' h
      split at h
      · exact absurd h (by simp)
      · cases h; rfl
    · intro hb hmin
      have hsr : stallRecover ls.st =
          processBufferedPackets
            { ls.st with
              credits_sent := ls.st.credits_sent + 32,
              expected_seq := bufMinKey ls.st.packet_buffer } := by
        unfold stallRecover
        dsimp only
        rw [if_neg hb, if_pos hmin]
      rw [hsr]
      split <;> simp [TickResult.state]

/-- Witness for stall_transition_amended: at a state with one byte
received, file_size 1000, stall counter 20 and an unchanged sample, the
tick grants 32 extra credits (the low-progress stall branch). -/
theorem stall_transition_amended_witness :
    (tickBody 1000 1 ⟨{ initState with received_data := [7] }, 1, 20⟩).state.credits_sent
      = ({ initState with received_data := [7] } : ReceiverState).credits_sent + 32 :=
  (stall_transition_amended.2.2 1000 1 ⟨{ initState with received_data := [7] }, 1, 20⟩
    (by decide) (by decide) rfl (by decide)).1

theorem drainGo_out_extends (fuel : Nat) :
    ∀ (e : Nat) (buf : Buf) (out : List Nat),
      ∃ s, (drainGo fuel e buf out).2.2 = out ++ s := by
  induction fuel with
  | zero => intro e buf out; exact ⟨[], by simp [drainGo]⟩
  | succ n ih =>
    intro e buf out
    unfold drainGo
    cases h : bufFind e buf with
    | none => exact ⟨[], by simp⟩
    | some p =>
      obtain ⟨s, hs⟩ := ih (e + 1) (bufErase e buf) (out ++ p)
      exact ⟨p ++ s, by rw [hs, List.append_assoc]⟩

theorem pbp_received_extends (st : ReceiverState) :
    ∃ s, (processBufferedPackets st).received_data = st.received_data ++ s := by
  unfold processBufferedPackets
  dsimp only
  exact drainGo_out_extends _ _ _ _

theorem ho_received_extends (st : ReceiverState) (q : Nat) (p : List Nat) :
    ∃ s, (handleOrdering st q p).received_data = st.received_data ++ s := by
  unfold handleOrdering
  dsimp only
  by_cases h2 : q = st.expected_seq
  · rw [if_pos h2]
    obtain ⟨s, hs⟩ := pbp_received_extends
      { st with
        received_data := st.received_data ++ p,
        expected_seq := st.expected_seq + 1 }
    exact ⟨p ++ s, by rw [hs, List.append_assoc]⟩
  · rw [if_neg h2]
    by_cases h3 : bufMem q st.packet_buffer
    · rw [if_pos h3]
      exact ⟨[], by simp⟩
    · rw [if_neg h3]
      by_cases h4 : 50 < q - st.expected_seq
      · rw [if_pos h4]
        rcases hm : sortNat (List.filter (fun s => decide (st.expected_seq ≤ s))
            (bufKeys (bufInsert q p st.packet_buffer))) with _ | ⟨next, tail⟩ <;>
          dsimp only
        · exact ⟨[], by simp⟩
        · exact pbp_received_extends
            { st with
              packet_buffer := bufInsert q p st.packet_buffer,
              expected_seq := next }
      · rw [if_neg h4]
        exact ⟨[], by simp⟩

theorem hv_received_extends (st : ReceiverState) (q : Nat) (p : List Nat) :
    ∃ s, (handleValidated st q p).received_data = st.received_data ++ s := by
  unfold handleValidated
  dsimp only
  split
  · exact ⟨[], by simp⟩
  · rw [creditWrap_received]
    exact ho_received_extends { st with total_packets := st.total_packets + 1 } q p

theorem handler_received_extends (st : ReceiverState) (d : List Nat) :
    ∃ s, (notification_handler st d).received_data = st.received_data ++ s := by
  unfold notification_handler
  dsimp only
  split
  · exact ⟨[], by simp⟩
  · split
    · exact ⟨[], by simp⟩
    · split
      · exact ⟨[], by simp⟩
      · split
        · exact hv_received_extends { st with crc_error_count := st.crc_error_count + 1 } _ _
        · exact hv_received_extends st _ _

theorem stallRecover_received_extends (st : ReceiverState) :
    ∃ s, (stallRecover st).received_data = st.received_data ++ s := by
  unfold stallRecover
  dsimp only
  split
  · exact ⟨[], by simp⟩
  · split
    · exact pbp_received_extends
        { st with
          credits_sent := st.credits_sent + 32,
          expected_seq := bufMinKey st.packet_buffer }
    · exact ⟨[], by simp⟩

theorem tickBody_received_extends (fileSize : Nat) (t : ℚ) (ls : LoopSt) :
    ∃ s, (tickBody fileSize t ls).state.received_data = ls.st.received_data ++ s := by
  unfold tickBody
  dsimp only
  repeat' split
  all_goals simp only [TickResult.state]
  all_goals
    first
      | exact stallRecover_received_extends ls.st
      | exact ⟨[], by simp⟩

theorem tickBody_timeout_received (fileSize : Nat) (t : ℚ) (ls : LoopSt)
    (st' : ReceiverState) (h : tickBody fileSize t ls = .exitTimeout st') :
    st'.received_data = [] := by
  unfold tickBody at h
  dsimp only at h
  repeat' split at h
  all_goals cases h
  all_goals
    rename_i hcond
    exact List.length_eq_zero.mp hcond.2

theorem runLoop_timedOut_received (fileSize : Nat) :
    ∀ (evs : List Ev) (ls : LoopSt) (nc : Bool),
      (runLoop fileSize ls nc evs).outcome = Outcome.timedOut →
      (runLoop fileSize ls nc evs).state.received_data = [] ∧
      ls.st.received_data = [] := by
  intro evs
  induction evs with
  | nil =>
    intro ls nc h
    unfold runLoop at h
    split at h <;> simp at h
  | cons ev rest ih =>
    intro ls nc h
    unfold runLoop at h ⊢
    split at h
    · simp at h
    · rename_i hcond
      rw [if_neg hcond]
      cases ev with
      | pkt d =>
        dsimp only at h ⊢
        obtain ⟨hfin, hstart⟩ := ih _ _ h
        refine ⟨hfin, ?_⟩
        dsimp only at hstart
        obtain ⟨s, hs⟩ := handler_received_extends ls.st d
        rw [hs] at hstart
        exact (List.append_eq_nil.mp hstart).1
      | tick t =>
        dsimp only at h ⊢
        rcases htb : tickBody fileSize t ls with ls' | st' | st'
        · rw [htb] at h
          dsimp only at h ⊢
          obtain ⟨hfin, hstart⟩ := ih _ _ h
          refine ⟨hfin, ?_⟩
          obtain ⟨s, hs⟩ := tickBody_received_extends fileSize t ls
          rw [htb] at hs
          dsimp only [TickResult.state] at hs
          rw [hs] at hstart
          exact (List.append_eq_nil.mp hstart).1
        · rw [htb] at h
          simp at h
        · rw [htb] at h
          dsimp only at h ⊢
          have he : st'.received_data = [] :=
            tickBody_timeout_received fileSize t ls st' htb
          refine ⟨he, ?_⟩
          obtain ⟨s, hs⟩ := tickBody_received_extends fileSize t ls
          rw [htb] at hs
          dsimp only [TickResult.state] at hs
          rw [he] at hs
          exact (List.append_eq_nil.mp hs.symm).1

theorem stallRecover_empty_buffer (st : ReceiverState)
    (h : st.packet_buffer = []) :
    stallRecover st = { st with credits_sent := st.credits_sent + 32 } := by
  unfold stallRecover
  dsimp only
  rw [if_pos h]

theorem tickBody_noData (fileSize : Nat) (hfs : 0 < fileSize) (t : ℚ) (ls : LoopSt)
    (h1 : ls.st.received_data = []) (h2 : ls.st.packet_buffer = [])
    (h3 : ls.st.file_transfer_complete = false) (hsc : ls.stallCount ≤ 20) :
    (60 < t → ∃ st', tickBody fileSize t ls = .exitTimeout st' ∧
      st'.received_data = []) ∧
    (¬60 < t → ∃ ls', tickBody fileSize t ls = .contin ls' ∧
      ls'.st.received_data = [] ∧ ls'.st.packet_buffer = [] ∧
      ls'.st.file_transfer_complete = false ∧ ls'.stallCount ≤ 20) := by
  have hlen0 : ls.st.received_data.length = 0 := by rw [h1]; rfl
  by_cases hlast : ls.st.received_data.length = ls.lastReceived
  · by_cases hstall : ls.stallCount < 20
    · rw [tickBody_stall_small fileSize t ls h3 hlast hstall]
      constructor
      · intro ht
        exact ⟨ls.st, by rw [if_pos ⟨ht, hlen0⟩], h1⟩
      · intro ht
        refine ⟨⟨ls.st, ls.lastReceived, ls.stallCount + 1⟩, ?_, h1, h2, h3,
          show ls.stallCount + 1 ≤ 20 by omega⟩
        rw [if_neg (by intro hc; exact ht hc.1)]
    · have hs20 : ls.stallCount = 20 := by omega
      have hp : ¬(0 < fileSize ∧ 99 * fileSize ≤ 100 * ls.st.received_data.length) := by
        rw [hlen0]
        intro hc
        omega
      rw [tickBody_stall_recover fileSize t ls h3 hlast hs20 hp,
        stallRecover_empty_buffer ls.st h2]
      constructor
      · intro ht
        refine ⟨{ ls.st with credits_sent := ls.st.credits_sent + 32 }, ?_, h1⟩
        rw [if_pos ⟨ht, hlen0⟩]
      · intro ht
        refine ⟨⟨{ ls.st with credits_sent := ls.st.credits_sent + 32 },
          ls.lastReceived, 0⟩, ?_, h1, h2, h3, show (0 : Nat) ≤ 20 by omega⟩
        rw [if_neg (by intro hc; exact ht hc.1)]
  · rw [tickBody_progress fileSize t ls h3 hlast]
    constructor
    · intro ht
      exact ⟨ls.st, by rw [if_pos ⟨ht, hlen0⟩], h1⟩
    · intro ht
      refine ⟨⟨ls.st, ls.st.received_data.length, 0⟩, ?_, h1, h2, h3,
        show (0 : Nat) ≤ 20 by omega⟩
      rw [if_neg (by intro hc; exact ht hc.1)]

theorem runLoop_noData_ticks (fileSize : Nat) (hfs : 0 < fileSize) :
    ∀ (ts : List ℚ) (ls : LoopSt),
      ls.st.received_data = [] → ls.st.packet_buffer = [] →
      ls.st.file_transfer_complete = false → ls.stallCount ≤ 20 →
      (∃ t ∈ ts, t > 60) →
      (runLoop fileSize ls true (ts.map Ev.tick)).outcome = Outcome.timedOut ∧
      (runLoop fileSize ls true (ts.map Ev.tick)).state.received_data = [] := by
  intro ts
  induction ts with
  | nil =>
    intro ls _ _ _ _ hex
    simp at hex
  | cons t rest ih =>
    intro ls h1 h2 h3 hsc hex
    have hcond : (true && !loopCond fileSize ls.st) = false := by
      simp [loopCond, h1, h3, hfs]
    rw [List.map_cons]
    unfold runLoop
    rw [hcond]
    rw [if_neg (by simp)]
    dsimp only
    by_cases htt : 60 < t
    · obtain ⟨st', htb, hst'⟩ :=
        (tickBody_noData fileSize hfs t ls h1 h2 h3 hsc).1 htt
      rw [htb]
      exact ⟨rfl, hst'⟩
    · obtain ⟨ls', htb, hr1, hr2, hr3, hr4⟩ :=
        (tickBody_noData fileSize hfs t ls h1 h2 h3 hsc).2 htt
      rw [htb]
      dsimp only
      apply ih ls' hr1 hr2 hr3 hr4
      obtain ⟨t0, ht0mem, ht0⟩ := hex
      rcases List.mem_cons.mp ht0mem with h | h
      · exact absurd (h ▸ ht0) htt
      · exact ⟨t0, h, ht0⟩

/-- C5 amended: the hard timeout fires only for inactivity — a session
with a positive declared size that receives no frame at all and whose
driving loop takes a sample more than 60 seconds after subscription
terminates TimedOut with bytes_received = 0; conversely, any run that
ends TimedOut has an empty output stream throughout, so a session that
has received even one payload byte is never subject to the hard
timeout.  (A session with zero payload bytes that got an EndMarker
completes instead — see the counterexample.) -/
theorem hard_timeout_amended :
    (∀ (fileSize : Nat) (ts : List ℚ), 0 < fileSize → (∃ t ∈ ts, t > 60) →
      (downloadRun fileSize (ts.map Ev.tick)).outcome = Outcome.timedOut ∧
      (downloadRun fileSize (ts.map Ev.tick)).state.received_data = []) ∧
    (∀ (fileSize : Nat) (evs : List Ev) (ls : LoopSt) (nc : Bool),
      (runLoop fileSize ls nc evs).outcome = Outcome.timedOut →
      (runLoop fileSize ls nc evs).state.received_data = [] ∧
      ls.st.received_data = []) := by
  constructor
  · intro fileSize ts hfs hex
    exact runLoop_noData_ticks fileSize hfs ts ⟨startState, 0, 0⟩ rfl rfl rfl
      (show (0 : Nat) ≤ 20 by omega) hex
  · intro fileSize evs ls nc h
    exact runLoop_timedOut_received fileSize evs ls nc h

/-- Witness for hard_timeout_amended: file size 100, a single sample at
61 seconds with no frames delivered, times out with no bytes. -/
theorem hard_timeout_amended_witness :
    (downloadRun 100 ([(61 : ℚ)].map Ev.tick)).outcome = Outcome.timedOut ∧
    (downloadRun 100 ([(61 : ℚ)].map Ev.tick)).state.received_data = [] :=
  hard_timeout_amended.1 100 [(61 : ℚ)] (by decide)
    ⟨61, List.mem_singleton.mpr rfl, by norm_num⟩

theorem hv_credits (st : ReceiverState) (q : Nat) (p : List Nat) :
    (handleValidated st q p).credits_sent =
      st.credits_sent +
        (if st.expected_seq ≤ q ∧ (st.total_packets + 1) % 2 = 0 then 2 else 0) := by
  unfold handleValidated
  dsimp only
  split
  · rename_i h
    rw [if_neg (by intro hc; omega)]
    rfl
  · rename_i h
    rw [creditWrap_credits, ho_credits, ho_total]
    dsimp only
    have hq : st.expected_seq ≤ q := by omega
    by_cases hm : (st.total_packets + 1) % 2 = 0
    · rw [if_pos hm, if_pos ⟨hq, hm⟩]
    · rw [if_neg hm, if_neg (by intro hc; exact hm hc.2)]

theorem handler_credits_mono (st : ReceiverState) (d : List Nat) :
    st.credits_sent ≤ (notification_handler st d).credits_sent := by
  unfold notification_handler
  dsimp only
  split
  · exact Nat.le_refl _
  · split
    · exact Nat.le_refl _
    · split
      · exact Nat.le_refl _
      · split
        · rw [hv_credits]
          dsimp only
          omega
        · rw [hv_credits]
          omega

theorem tickBody_credits_mono (fileSize : Nat) (t : ℚ) (ls : LoopSt) :
    ls.st.credits_sent ≤ (tickBody fileSize t ls).state.credits_sent := by
  unfold tickBody
  dsimp only
  repeat' split
  all_goals simp only [TickResult.state]
  all_goals
    first
      | exact Nat.le_refl _
      | (rw [stallRecover_credits]; omega)

theorem runLoop_credits_mono (fileSize : Nat) :
    ∀ (evs : List Ev) (ls : LoopSt) (nc : Bool),
      ls.st.credits_sent ≤ (runLoop fileSize ls nc evs).state.credits_sent := by
  intro evs
  induction evs with
  | nil =>
    intro ls nc
    unfold runLoop
    split <;> exact Nat.le_refl _
  | cons ev rest ih =>
    intro ls nc
    unfold runLoop
    split
    · exact Nat.le_refl _
    · cases ev with
      | pkt d =>
        dsimp only
        exact Nat.le_trans (handler_credits_mono ls.st d)
          (ih ⟨notification_handler ls.st d, ls.lastReceived, ls.stallCount⟩ false)
      | tick t =>
        dsimp only
        rcases htb : tickBody fileSize t ls with ls' | st' | st'
        · have h1 : ls.st.credits_sent ≤ ls'.st.credits_sent := by
            have := tickBody_credits_mono fileSize t ls
            rw [htb] at this
            exact this
          exact Nat.le_trans h1 (ih ls' true)
        · have := tickBody_credits_mono fileSize t ls
          rw [htb] at this
          exact this
        · have := tickBody_credits_mono fileSize t ls
          rw [htb] at this
          exact this

/-- C6 amended: the flow controller grants exactly 64 credits at
session start and 32 extra credits on each stall detection, and the
cumulative credits counter never decreases; the per-packet cadence,
however, is conditional: a validated packet always advances the packet
counter by one, and 2 credits are granted exactly when the incremented
counter is even AND the packet is not a stale duplicate — a stale
packet (seq < expected_seq) returns before the cadence (receive.py line
220), so an even-numbered stale packet suppresses that grant. -/
theorem flow_control_amended :
    startState.credits_sent = 64 ∧
    (∀ (st : ReceiverState) (q : Nat) (p : List Nat),
      (handleValidated st q p).total_packets = st.total_packets + 1 ∧
      (handleValidated st q p).credits_sent =
        st.credits_sent +
          (if st.expected_seq ≤ q ∧ (st.total_packets + 1) % 2 = 0 then 2 else 0)) ∧
    (∀ (fileSize : Nat) (t : ℚ) (ls : LoopSt),
      ls.st.file_transfer_complete = false →
      ls.st.received_data.length = ls.lastReceived →
      ls.stallCount = 20 →
      ¬(0 < fileSize ∧ 99 * fileSize ≤ 100 * ls.st.received_data.length) →
      (tickBody fileSize t ls).state.credits_sent = ls.st.credits_sent + 32) ∧
    (∀ (fileSize : Nat) (evs : List Ev) (ls : LoopSt) (nc : Bool),
      ls.st.credits_sent ≤ (runLoop fileSize ls nc evs).state.credits_sent) := by
  refine ⟨rfl, ?_, ?_, ?_⟩
  · intro st q p
    exact ⟨hv_total st q p, hv_credits st q p⟩
  · intro fileSize t ls hc hl hs hp
    rw [tickBody_stall_recover fileSize t ls hc hl hs hp]
    split <;> simp [TickResult.state, stallRecover_credits]
  · intro fileSize evs ls nc
    exact runLoop_credits_mono fileSize evs ls nc

/-- Witness for flow_control_amended: at the fresh session state, one
in-order packet (the first, making the counter odd) grants nothing, and
a stalled sample at counter 20 grants 32. -/
theorem flow_control_amended_witness :
    (handleValidated startState 0 [5]).credits_sent = startState.credits_sent + 0 ∧
    (tickBody 1000 1 ⟨{ startState with received_data := [7] }, 1, 20⟩).state.credits_sent
      = ({ startState with received_data := [7] } : ReceiverState).credits_sent + 32 :=
  ⟨by
    have h := (flow_control_amended.2.1 startState 0 [5]).2
    rw [h]
    rfl,
   flow_control_amended.2.2.1 1000 1 ⟨{ startState with received_data := [7] }, 1, 20⟩
     (by decide) (by decide) rfl (by decide)⟩

theorem bufErase_sublist (k : Nat) : ∀ b : Buf, List.Sublist (bufErase k b) b := by
  intro b
  induction b with
  | nil => simp [bufErase]
  | cons kv t ih =>
    obtain ⟨k', v⟩ := kv
    unfold bufErase
    split
    · exact List.sublist_cons_self _ _
    · exact List.Sublist.cons₂ _ ih

theorem sortedBuf_erase (k : Nat) (b : Buf) (h : SortedBuf b) :
    SortedBuf (bufErase k b) :=
  List.Pairwise.sublist (bufErase_sublist k b) h

theorem mem_bufErase (k : Nat) (b : Buf) {kv : Nat × List Nat}
    (h : kv ∈ bufErase k b) : kv ∈ b :=
  (bufErase_sublist k b).mem h

theorem bufFind_mem {k : Nat} {v : List Nat} : ∀ {b : Buf},
    bufFind k b = some v → (k, v) ∈ b := by
  intro b
  induction b with
  | nil => intro h; cases h
  | cons kv t ih =>
    obtain ⟨k', v'⟩ := kv
    unfold bufFind
    split
    · rename_i hk
      intro h
      injection h with hv
      rw [hk, ← hv]
      exact List.mem_cons_self _ _
    · intro h
      exact List.mem_cons_of_mem _ (ih h)

theorem bufFind_ne_none_of_mem {k : Nat} {v : List Nat} : ∀ {b : Buf},
    (k, v) ∈ b → bufFind k b ≠ none := by
  intro b
  induction b with
  | nil => intro h; cases h
  | cons kv t ih =>
    obtain ⟨k', v'⟩ := kv
    intro hm
    unfold bufFind
    rcases List.mem_cons.mp hm with h | h
    · rw [if_pos (congrArg Prod.fst h)]
      simp
    · split
      · simp
      · exact ih h

theorem bufErase_key_ne {e : Nat} {v : List Nat} : ∀ {b : Buf},
    SortedBuf b → bufFind e b = some v →
    ∀ kv ∈ bufErase e b, kv.1 ≠ e := by
  intro b
  induction b with
  | nil => intro _ h; cases h
  | cons kv0 t ih =>
    obtain ⟨k', v'⟩ := kv0
    intro hs hf kv hm
    unfold bufFind at hf
    unfold bufErase at hm
    by_cases hk : e = k'
    · rw [if_pos hk] at hm
      have hlt := (List.pairwise_cons.mp hs).1 kv hm
      omega
    · rw [if_neg hk] at hf hm
      rcases List.mem_cons.mp hm with h | h
      · rw [h]
        dsimp only
        omega
      · exact ih (List.pairwise_cons.mp hs).2 hf kv h

theorem bufErase_length_lt {e : Nat} {v : List Nat} : ∀ {b : Buf},
    bufFind e b = some v → (bufErase e b).length < b.length := by
  intro b
  induction b with
  | nil => intro h; cases h
  | cons kv0 t ih =>
    obtain ⟨k', v'⟩ := kv0
    intro hf
    unfold bufFind at hf
    unfold bufErase
    split
    · simp
    · rename_i hk
      rw [if_neg hk] at hf
      simp only [List.length_cons]
      exact Nat.succ_lt_succ (ih hf)

theorem drainGo_inv (fuel : Nat) :
    ∀ (e : Nat) (buf : Buf) (out : List Nat),
      buf.length < fuel → SortedBuf buf → (∀ kv ∈ buf, e ≤ kv.1) →
      SortedBuf (drainGo fuel e buf out).2.1 ∧
      (∀ kv ∈ (drainGo fuel e buf out).2.1, (drainGo fuel e buf out).1 < kv.1) ∧
      e ≤ (drainGo fuel e buf out).1 := by
  induction fuel with
  | zero => intro e buf out h; omega
  | succ n ih =>
    intro e buf out hfuel hs hge
    unfold drainGo
    cases hf : bufFind e buf with
    | none =>
      refine ⟨hs, ?_, Nat.le_refl e⟩
      intro kv hm
      have h1 := hge kv hm
      rcases Nat.lt_or_ge e kv.1 with h | h
      · exact h
      · have heq : kv.1 = e := by omega
        exfalso
        have hmem : (e, kv.2) ∈ buf := by rw [← heq]; exact hm
        exact bufFind_ne_none_of_mem hmem hf
    | some p =>
      have hlen : (bufErase e buf).length < n := by
        have := bufErase_length_lt hf
        omega
      have hs' := sortedBuf_erase e buf hs
      have hge' : ∀ kv ∈ bufErase e buf, e + 1 ≤ kv.1 := by
        intro kv hm
        have h1 := hge kv (mem_bufErase e buf hm)
        have h2 := bufErase_key_ne hs hf kv hm
        omega
      obtain ⟨c1, c2, c3⟩ := ih (e + 1) (bufErase e buf) (out ++ p) hlen hs' hge'
      exact ⟨c1, c2, Nat.le_trans (Nat.le_succ e) c3⟩

theorem bufEraseMany_sublist : ∀ (ks : List Nat) (b : Buf),
    List.Sublist (bufEraseMany ks b) b := by
  intro ks
  induction ks with
  | nil => intro b; exact List.Sublist.refl b
  | cons k t ih =>
    intro b
    unfold bufEraseMany
    rw [List.foldl_cons]
    exact List.Sublist.trans (ih (bufErase k b)) (bufErase_sublist k b)

theorem pbp_inv (st : ReceiverState)
    (hs : SortedBuf st.packet_buffer)
    (hge : ∀ kv ∈ st.packet_buffer, st.expected_seq ≤ kv.1) :
    SortedBuf (processBufferedPackets st).packet_buffer ∧
    (∀ kv ∈ (processBufferedPackets st).packet_buffer,
      (processBufferedPackets st).expected_seq < kv.1) ∧
    st.expected_seq ≤ (processBufferedPackets st).expected_seq := by
  obtain ⟨c1, c2, c3⟩ := drainGo_inv (st.packet_buffer.length + 1)
    st.expected_seq st.packet_buffer st.received_data
    (Nat.lt_succ_self _) hs hge
  unfold processBufferedPackets
  dsimp only
  constructor
  · split
    · exact List.Pairwise.sublist (bufEraseMany_sublist _ _) c1
    · exact c1
  constructor
  · split
    · intro kv hm
      exact c2 kv ((bufEraseMany_sublist _ _).mem hm)
    · exact c2
  · exact c3

theorem mem_bufInsert (k : Nat) (v : List Nat) (kv : Nat × List Nat) :
    ∀ b : Buf, kv ∈ bufInsert k v b → kv = (k, v) ∨ kv ∈ b := by
  intro b
  induction b with
  | nil =>
    intro h
    unfold bufInsert at h
    rcases List.mem_singleton.mp h with h
    exact Or.inl h
  | cons kv0 t ih =>
    obtain ⟨k', v'⟩ := kv0
    intro h
    unfold bufInsert at h
    split at h
    · rcases List.mem_cons.mp h with h | h
      · exact Or.inl h
      · exact Or.inr h
    · split at h
      · rcases List.mem_cons.mp h with h | h
        · exact Or.inl h
        · exact Or.inr (List.mem_cons_of_mem _ h)
      · rcases List.mem_cons.mp h with h | h
        · exact Or.inr (h ▸ List.mem_cons_self _ _)
        · rcases ih h with h | h
          · exact Or.inl h
          · exact Or.inr (List.mem_cons_of_mem _ h)

theorem bufInsert_sorted (k : Nat) (v : List Nat) :
    ∀ b : Buf, SortedBuf b → SortedBuf (bufInsert k v b) := by
  intro b
  induction b with
  | nil => intro _; simp [bufInsert, SortedBuf]
  | cons kv0 t ih =>
    obtain ⟨k', v'⟩ := kv0
    intro hs
    obtain ⟨hhead, htail⟩ := List.pairwise_cons.mp hs
    unfold bufInsert
    split
    · rename_i hlt
      refine List.pairwise_cons.mpr ⟨?_, hs⟩
      intro y hy
      rcases List.mem_cons.mp hy with h | h
      · rw [h]; exact hlt
      · have := hhead y h
        dsimp only
        omega
    · split
      · rename_i hlt heq
        refine List.pairwise_cons.mpr ⟨?_, htail⟩
        intro y hy
        have := hhead y hy
        dsimp only
        omega
      · rename_i hlt heq
        refine List.pairwise_cons.mpr ⟨?_, ih htail⟩
        intro y hy
        rcases mem_bufInsert k v y t hy with h | h
        · rw [h]
          dsimp only
          omega
        · exact hhead y h

theorem bufInsert_ne_nil (k : Nat) (v : List Nat) : ∀ b : Buf,
    bufInsert k v b ≠ [] := by
  intro b
  cases b with
  | nil => simp [bufInsert]
  | cons kv0 t =>
    obtain ⟨k', v'⟩ := kv0
    unfold bufInsert
    split
    · simp
    · split <;> simp

theorem insSorted_of_le (a : Nat) : ∀ (l : List Nat),
    (∀ x ∈ l, a ≤ x) → insSorted a l = a :: l := by
  intro l h
  cases l with
  | nil => rfl
  | cons b t =>
    unfold insSorted
    rw [if_pos (h b (List.mem_cons_self _ _))]

theorem sortNat_sorted_id : ∀ (l : List Nat),
    List.Pairwise (· < ·) l → sortNat l = l := by
  intro l
  induction l with
  | nil => intro _; rfl
  | cons a t ih =>
    intro hs
    obtain ⟨hhead, htail⟩ := List.pairwise_cons.mp hs
    unfold sortNat
    rw [ih htail]
    exact insSorted_of_le a t (fun x hx => Nat.le_of_lt (hhead x hx))

theorem sortedBuf_keys (b : Buf) (h : SortedBuf b) :
    List.Pairwise (· < ·) (bufKeys b) :=
  List.pairwise_map.mpr h

theorem foldl_min_le : ∀ (t : List Nat) (a : Nat),
    t.foldl Nat.min a ≤ a ∧ ∀ x ∈ t, t.foldl Nat.min a ≤ x := by
  intro t
  induction t with
  | nil => intro a; exact ⟨Nat.le_refl a, by simp⟩
  | cons b t ih =>
    intro a
    rw [List.foldl_cons]
    obtain ⟨h1, h2⟩ := ih (Nat.min a b)
    refine ⟨Nat.le_trans h1 (Nat.min_le_left a b), ?_⟩
    intro x hx
    rcases List.mem_cons.mp hx with h | h
    · rw [h]
      exact Nat.le_trans h1 (Nat.min_le_right a b)
    · exact h2 x h

theorem bufMinKey_le (b : Buf) : ∀ kv ∈ b, bufMinKey b ≤ kv.1 := by
  intro kv hm
  unfold bufMinKey
  cases b with
  | nil => cases hm
  | cons kv0 t =>
    rw [show bufKeys (kv0 :: t) = kv0.1 :: bufKeys t from rfl]
    dsimp only
    rcases List.mem_cons.mp hm with h | h
    · rw [h]
      exact (foldl_min_le (bufKeys t) kv0.1).1
    · exact (foldl_min_le (bufKeys t) kv0.1).2 kv.1
        (List.mem_map.mpr ⟨kv, h, rfl⟩)

theorem ho_inv (st : ReceiverState) (q : Nat) (p : List Nat)
    (hs : SortedBuf st.packet_buffer)
    (hgt : ∀ kv ∈ st.packet_buffer, st.expected_seq < kv.1)
    (hq : st.expected_seq ≤ q) :
    SortedBuf (handleOrdering st q p).packet_buffer ∧
    (∀ kv ∈ (handleOrdering st q p).packet_buffer,
      (handleOrdering st q p).expected_seq < kv.1) := by
  unfold handleOrdering
  dsimp only
  by_cases h2 : q = st.expected_seq
  · rw [if_pos h2]
    have h := pbp_inv
      { st with
        received_data := st.received_data ++ p,
        expected_seq := st.expected_seq + 1 }
      hs (by intro kv hm; exact hgt kv hm)
    exact ⟨h.1, h.2.1⟩
  · rw [if_neg h2]
    by_cases h3 : bufMem q st.packet_buffer
    · rw [if_pos h3]
      exact ⟨hs, hgt⟩
    · rw [if_neg h3]
      have hq' : st.expected_seq < q := by omega
      have hsort' : SortedBuf (bufInsert q p st.packet_buffer) :=
        bufInsert_sorted q p st.packet_buffer hs
      have hgt' : ∀ kv ∈ bufInsert q p st.packet_buffer, st.expected_seq < kv.1 := by
        intro kv hm
        rcases mem_bufInsert q p kv st.packet_buffer hm with h | h
        · rw [h]; exact hq'
        · exact hgt kv h
      by_cases h4 : 50 < q - st.expected_seq
      · rw [if_pos h4]
        have hfilter : (bufKeys (bufInsert q p st.packet_buffer)).filter
            (fun s => decide (st.expected_seq ≤ s)) =
            bufKeys (bufInsert q p st.packet_buffer) := by
          apply List.filter_eq_self.mpr
          intro a ha
          obtain ⟨kv, hkv, hfst⟩ := List.mem_map.mp ha
          have := hgt' kv hkv
          rw [← hfst]
          simp only [decide_eq_true_eq]
          omega
        have hsortid : sortNat (bufKeys (bufInsert q p st.packet_buffer)) =
            bufKeys (bufInsert q p st.packet_buffer) :=
          sortNat_sorted_id _ (sortedBuf_keys _ hsort')
        rw [hfilter, hsortid]
        rcases hbk : bufKeys (bufInsert q p st.packet_buffer) with _ | ⟨k0, krest⟩
        · exfalso
          have := bufInsert_ne_nil q p st.packet_buffer
          cases hb : bufInsert q p st.packet_buffer with
          | nil => exact this hb
          | cons x xs =>
            rw [hb] at hbk
            cases hbk
        · dsimp only
          have hmin : ∀ kv ∈ bufInsert q p st.packet_buffer, k0 ≤ kv.1 := by
            intro kv hm
            have hkm : kv.1 ∈ k0 :: krest := by
              rw [← hbk]
              exact List.mem_map.mpr ⟨kv, hm, rfl⟩
            rcases List.mem_cons.mp hkm with h | h
            · omega
            · have hpw := sortedBuf_keys _ hsort'
              rw [hbk] at hpw
              exact Nat.le_of_lt ((List.pairwise_cons.mp hpw).1 kv.1 h)
          have hres := pbp_inv
            { st with
              packet_buffer := bufInsert q p st.packet_buffer,
              expected_seq := k0 }
            hsort' hmin
          exact ⟨hres.1, hres.2.1⟩
      · rw [if_neg h4]
        exact ⟨hsort', hgt'⟩

theorem hv_inv (st : ReceiverState) (q : Nat) (p : List Nat)
    (hs : SortedBuf st.packet_buffer)
    (hgt : ∀ kv ∈ st.packet_buffer, st.expected_seq < kv.1) :
    SortedBuf (handleValidated st q p).packet_buffer ∧
    (∀ kv ∈ (handleValidated st q p).packet_buffer,
      (handleValidated st q p).expected_seq < kv.1) := by
  unfold handleValidated
  dsimp only
  split
  · exact ⟨hs, hgt⟩
  · rename_i h
    rw [creditWrap_buffer, creditWrap_expected]
    exact ho_inv { st with total_packets := st.total_packets + 1 } q p hs hgt
      (show st.expected_seq ≤ q by omega)

theorem handler_inv (st : ReceiverState) (d : List Nat)
    (hs : SortedBuf st.packet_buffer)
    (hgt : ∀ kv ∈ st.packet_buffer, st.expected_seq < kv.1) :
    SortedBuf (notification_handler st d).packet_buffer ∧
    (∀ kv ∈ (notification_handler st d).packet_buffer,
      (notification_handler st d).expected_seq < kv.1) := by
  unfold notification_handler
  dsimp only
  split
  · exact ⟨hs, hgt⟩
  · split
    · exact ⟨hs, hgt⟩
    · split
      · exact ⟨hs, hgt⟩
      · split
        · exact hv_inv { st with crc_error_count := st.crc_error_count + 1 } _ _ hs hgt
        · exact hv_inv st _ _ hs hgt

theorem stallRecover_inv (st : ReceiverState)
    (hs : SortedBuf st.packet_buffer)
    (hgt : ∀ kv ∈ st.packet_buffer, st.expected_seq < kv.1) :
    SortedBuf (stallRecover st).packet_buffer ∧
    (∀ kv ∈ (stallRecover st).packet_buffer,
      (stallRecover st).expected_seq < kv.1) := by
  unfold stallRecover
  dsimp only
  split
  · exact ⟨hs, hgt⟩
  · split
    · have hres := pbp_inv
        { st with
          credits_sent := st.credits_sent + 32,
          expected_seq := bufMinKey st.packet_buffer }
        hs (by intro kv hm; exact bufMinKey_le st.packet_buffer kv hm)
      exact ⟨hres.1, hres.2.1⟩
    · exact ⟨hs, hgt⟩

theorem tickBody_inv (fileSize : Nat) (t : ℚ) (ls : LoopSt)
    (hs : SortedBuf ls.st.packet_buffer)
    (hgt : ∀ kv ∈ ls.st.packet_buffer, ls.st.expected_seq < kv.1) :
    SortedBuf (tickBody fileSize t ls).state.packet_buffer ∧
    (∀ kv ∈ (tickBody fileSize t ls).state.packet_buffer,
      (tickBody fileSize t ls).state.expected_seq < kv.1) := by
  unfold tickBody
  dsimp only
  repeat' split
  all_goals simp only [TickResult.state]
  all_goals
    first
      | exact stallRecover_inv ls.st hs hgt
      | exact ⟨hs, hgt⟩

theorem handler_stale (st : ReceiverState) (d : List Nat)
    (h8 : 8 ≤ d.length)
    (hEOF : ¬(u16le d 4 = 0 ∧ u16le d 6 = 0))
    (hplen : ((d.drop 8).take (u16le d 4)).length = u16le d 4)
    (hstale : u32le d < st.expected_seq) :
    (notification_handler st d).packet_buffer = st.packet_buffer ∧
    (notification_handler st d).received_data = st.received_data ∧
    (notification_handler st d).expected_seq = st.expected_seq := by
  unfold notification_handler
  rw [if_neg (by omega), if_neg hEOF, if_neg (by intro hc; exact hc hplen)]
  unfold handleValidated
  dsimp only
  repeat' split
  all_goals
    first
      | exact ⟨rfl, rfl, rfl⟩
      | (rename_i hcontra; exact absurd hstale hcontra)
      | (rename_i hcontra _; exact absurd hstale hcontra)

/-- C9: the buffer invariant is preserved by every notification-handler
invocation and by every driving-loop iteration (including its stall
recovery): starting from a well-formed state (key-sorted buffer, every
buffered key strictly above expected_seq) the resulting state is again
well-formed, and in particular no buffer entry has a key below the
resulting expected_seq; moreover a stale packet (seq < expected_seq) is
discarded without changing the buffer, the output stream, or
expected_seq. -/
theorem buffer_no_stale_entries :
    (∀ (st : ReceiverState) (d : List Nat),
      SortedBuf st.packet_buffer →
      (∀ kv ∈ st.packet_buffer, st.expected_seq < kv.1) →
      SortedBuf (notification_handler st d).packet_buffer ∧
      (∀ kv ∈ (notification_handler st d).packet_buffer,
        (notification_handler st d).expected_seq < kv.1) ∧
      (∀ kv ∈ (notification_handler st d).packet_buffer,
        ¬kv.1 < (notification_handler st d).expected_seq)) ∧
    (∀ (fileSize : Nat) (t : ℚ) (ls : LoopSt),
      SortedBuf ls.st.packet_buffer →
      (∀ kv ∈ ls.st.packet_buffer, ls.st.expected_seq < kv.1) →
      SortedBuf (tickBody fileSize t ls).state.packet_buffer ∧
      (∀ kv ∈ (tickBody fileSize t ls).state.packet_buffer,
        (tickBody fileSize t ls).state.expected_seq < kv.1) ∧
      (∀ kv ∈ (tickBody fileSize t ls).state.packet_buffer,
        ¬kv.1 < (tickBody fileSize t ls).state.expected_seq)) ∧
    (∀ (st : ReceiverState) (d : List Nat),
      8 ≤ d.length →
      ¬(u16le d 4 = 0 ∧ u16le d 6 = 0) →
      ((d.drop 8).take (u16le d 4)).length = u16le d 4 →
      u32le d < st.expected_seq →
      (notification_handler st d).packet_buffer = st.packet_buffer ∧
      (notification_handler st d).received_data = st.received_data ∧
      (notification_handler st d).expected_seq = st.expected_seq) := by
  refine ⟨?_, ?_, ?_⟩
  · intro st d hs hgt
    obtain ⟨c1, c2⟩ := handler_inv st d hs hgt
    exact ⟨c1, c2, fun kv hm => by have := c2 kv hm; omega⟩
  · intro fileSize t ls hs hgt
    obtain ⟨c1, c2⟩ := tickBody_inv fileSize t ls hs hgt
    exact ⟨c1, c2, fun kv hm => by have := c2 kv hm; omega⟩
  · intro st d h8 hEOF hplen hstale
    exact handler_stale st d h8 hEOF hplen hstale

/-- Witness for buffer_no_stale_entries: a state expecting sequence 5
with packet 7 buffered stays well-formed when a packet arrives, and a
stale frame for sequence 2 leaves buffer, output and expected_seq
untouched. -/
theorem buffer_no_stale_entries_witness :
    (SortedBuf (notification_handler
        { initState with expected_seq := 5, packet_buffer := [(7, [1])] }
        (mkDataFrame 9 [3])).packet_buffer ∧
      (∀ kv ∈ (notification_handler
          { initState with expected_seq := 5, packet_buffer := [(7, [1])] }
          (mkDataFrame 9 [3])).packet_buffer,
        (notification_handler
          { initState with expected_seq := 5, packet_buffer := [(7, [1])] }
          (mkDataFrame 9 [3])).expected_seq < kv.1)) ∧
    (notification_handler
        { initState with expected_seq := 5, packet_buffer := [(7, [1])] }
        (mkDataFrame 2 [3])).packet_buffer = [(7, [1])] := by
  have h1 := (buffer_no_stale_entries.1
    { initState with expected_seq := 5, packet_buffer := [(7, [1])] }
    (mkDataFrame 9 [3])
    (by unfold SortedBuf; simp)
    (by intro kv hm; simp at hm; rw [hm]; decide))
  have h2 := (buffer_no_stale_entries.2.2
    { initState with expected_seq := 5, packet_buffer := [(7, [1])] }
    (mkDataFrame 2 [3])
    (by decide) (by decide) (by decide) (by decide))
  exact ⟨⟨h1.1, h1.2.1⟩, h2.1⟩

theorem drainGo_sorted (fuel : Nat) :
    ∀ (e : Nat) (buf : Buf) (out : List Nat),
      SortedBuf buf → SortedBuf (drainGo fuel e buf out).2.1 := by
  induction fuel with
  | zero => intro e buf out h; exact h
  | succ n ih =>
    intro e buf out h
    unfold drainGo
    cases hf : bufFind e buf with
    | none => exact h
    | some p => exact ih (e + 1) (bufErase e buf) (out ++ p) (sortedBuf_erase e buf h)

theorem bufErase_head (k : Nat) (v : List Nat) (t : Buf) :
    bufErase k ((k, v) :: t) = t := by
  unfold bufErase
  rw [if_pos rfl]

theorem bufEraseMany_take_keys : ∀ (n : Nat) (b : Buf),
    bufEraseMany ((bufKeys b).take n) b = b.drop n := by
  intro n
  induction n with
  | zero => intro b; simp [bufEraseMany]
  | succ m ih =>
    intro b
    cases b with
    | nil => simp [bufEraseMany, bufKeys]
    | cons kv t =>
      obtain ⟨k, v⟩ := kv
      rw [show bufKeys ((k, v) :: t) = k :: bufKeys t from rfl, List.take_succ_cons,
        List.drop_succ_cons]
      unfold bufEraseMany
      rw [List.foldl_cons, bufErase_head]
      exact ih t

theorem pbp_buffer_shape (st : ReceiverState) (hs : SortedBuf st.packet_buffer) :
    ∃ dbuf : Buf, SortedBuf dbuf ∧
      (processBufferedPackets st).packet_buffer =
        (if dbuf.length > st.max_buffer_size then
          dbuf.drop (dbuf.length - st.max_buffer_size / 2)
        else dbuf) := by
  refine ⟨(drainGo (st.packet_buffer.length + 1) st.expected_seq st.packet_buffer
    st.received_data).2.1, drainGo_sorted _ _ _ _ hs, ?_⟩
  unfold processBufferedPackets
  dsimp only
  split
  · rw [sortNat_sorted_id _ (sortedBuf_keys _ (drainGo_sorted _ _ _ _ hs)),
      bufEraseMany_take_keys]
  · rfl

theorem pbp_buffer_bound (st : ReceiverState) (hs : SortedBuf st.packet_buffer) :
    (processBufferedPackets st).packet_buffer.length ≤ st.max_buffer_size := by
  obtain ⟨dbuf, hds, heq⟩ := pbp_buffer_shape st hs
  rw [heq]
  split
  · rename_i hlen
    rw [List.length_drop]
    have := Nat.div_le_self st.max_buffer_size 2
    omega
  · rename_i hlen
    omega

theorem sorted_take_drop_lt (l : Buf) (n : Nat) (h : SortedBuf l) :
    ∀ kv ∈ l.take n, ∀ kv' ∈ l.drop n, kv.1 < kv'.1 := by
  have hsplit : l.take n ++ l.drop n = l := List.take_append_drop n l
  have hp : List.Pairwise (fun x y => x.1 < y.1) (l.take n ++ l.drop n) := by
    rw [hsplit]; exact h
  exact (List.pairwise_append.mp hp).2.2

set_option maxRecDepth 10000 in
/-- Counterexample to C2 as stated: after the 152 packets of c2trace the
reorder buffer holds 101 entries, exceeding max_buffer_size = 100 — a
plain out-of-order insert (receive.py line 231) does not invoke the
cleanup of process_buffered_packets, so the cap is not enforced after
every packet. -/
theorem buffer_cap_exceeded_cex :
    100 < (c2trace.foldl notification_handler initState).packet_buffer.length ∧
    (c2trace.foldl notification_handler initState).max_buffer_size = 100 := by
  decide

/-- C2 amended: the cap is enforced only by the drain/cleanup routine
process_buffered_packets (invoked on in-order arrivals, large-gap skips
and stall recovery), not after plain out-of-order inserts, which can
push the buffer above max_buffer_size.  Whenever that routine runs on a
well-formed buffer its result holds at most max_buffer_size entries,
and if the post-drain buffer exceeded the cap the eviction removed
precisely the lowest-keyed entries, leaving exactly half the cap. -/
theorem buffer_cap_amended :
    (∀ st : ReceiverState, SortedBuf st.packet_buffer →
      (processBufferedPackets st).packet_buffer.length ≤ st.max_buffer_size) ∧
    (∀ st : ReceiverState, SortedBuf st.packet_buffer →
      ∃ dbuf : Buf, SortedBuf dbuf ∧
        (processBufferedPackets st).packet_buffer =
          (if dbuf.length > st.max_buffer_size then
            dbuf.drop (dbuf.length - st.max_buffer_size / 2)
          else dbuf) ∧
        (dbuf.length > st.max_buffer_size →
          (processBufferedPackets st).packet_buffer.length =
            st.max_buffer_size / 2 ∧
          ∀ kv ∈ dbuf.take (dbuf.length - st.max_buffer_size / 2),
            ∀ kv' ∈ (processBufferedPackets st).packet_buffer, kv.1 < kv'.1)) := by
  constructor
  · exact fun st hs => pbp_buffer_bound st hs
  · intro st hs
    obtain ⟨dbuf, hds, heq⟩ := pbp_buffer_shape st hs
    refine ⟨dbuf, hds, heq, ?_⟩
    intro hlen
    rw [heq, if_pos hlen]
    constructor
    · rw [List.length_drop]
      have := Nat.div_le_self st.max_buffer_size 2
      omega
    · exact sorted_take_drop_lt dbuf (dbuf.length - st.max_buffer_size / 2) hds

set_option maxRecDepth 4000 in
/-- Witness for buffer_cap_amended: a state whose (sorted) buffer holds
102 entries with keys 1..102 is cut back to the 50 highest keys, within
the cap of 100. -/
theorem buffer_cap_amended_witness :
    (processBufferedPackets
      { initState with
        packet_buffer := (List.range 102).map (fun i => (i + 1, ([] : List Nat))) }
      ).packet_buffer.length ≤ 100 :=
  buffer_cap_amended.1
    { initState with
      packet_buffer := (List.range 102).map (fun i => (i + 1, ([] : List Nat))) }
    (by unfold SortedBuf; decide)

theorem mexFrom_stop (K : Nat → Bool) (f e : Nat) (h : K e = false) :
    mexFrom K f e = e := by
  cases f with
  | zero => rfl
  | succ g =>
    unfold mexFrom
    rw [h]
    simp

theorem mexFrom_ge (K : Nat → Bool) : ∀ (f n : Nat), n ≤ mexFrom K f n := by
  intro f
  induction f with
  | zero => intro n; exact Nat.le_refl n
  | succ g ih =>
    intro n
    unfold mexFrom
    split
    · exact Nat.le_trans (Nat.le_succ n) (ih (n + 1))
    · exact Nat.le_refl n

theorem mexFrom_below (K : Nat → Bool) : ∀ (f n i : Nat),
    n ≤ i → i < mexFrom K f n → K i = true := by
  intro f
  induction f with
  | zero =>
    intro n i h1 h2
    simp only [mexFrom] at h2
    omega
  | succ g ih =>
    intro n i h1 h2
    unfold mexFrom at h2
    split at h2
    · rename_i hK
      rcases Nat.eq_or_lt_of_le h1 with h | h
      · rw [← h]; exact hK
      · exact ih (n + 1) i h h2
    · omega

theorem mexFrom_le_not (K : Nat → Bool) : ∀ (f n m : Nat),
    n ≤ m → m < n + f → K m = false → mexFrom K f n ≤ m := by
  intro f
  induction f with
  | zero =>
    intro n m h1 h2 h3
    simp only [mexFrom]
    omega
  | succ g ih =>
    intro n m h1 h2 h3
    unfold mexFrom
    split
    · rename_i hK
      rcases Nat.eq_or_lt_of_le h1 with h | h
      · rw [← h] at h3; rw [hK] at h3; cases h3
      · exact ih (n + 1) m h (by omega) h3
    · exact h1

theorem mexFrom_not (K : Nat → Bool) : ∀ (f n : Nat),
    mexFrom K f n < n + f → K (mexFrom K f n) = false := by
  intro f
  induction f with
  | zero =>
    intro n h
    simp only [mexFrom] at h
    omega
  | succ g ih =>
    intro n h
    unfold mexFrom at h ⊢
    split at h
    · rename_i hK
      rw [if_pos hK]
      exact ih (n + 1) (by omega)
    · rename_i hK
      rw [if_neg hK]
      simpa using hK

theorem mexFrom_congr' (K₁ K₂ : Nat → Bool) : ∀ (f n : Nat),
    (∀ m, n ≤ m → K₁ m = K₂ m) → mexFrom K₁ f n = mexFrom K₂ f n := by
  intro f
  induction f with
  | zero => intro n _; rfl
  | succ g ih =>
    intro n h
    unfold mexFrom
    rw [h n (Nat.le_refl n)]
    split
    · exact ih (n + 1) (fun m hm => h m (by omega))
    · rfl

theorem mexFrom_split (K : Nat → Bool) : ∀ (f : Nat) (n a f' : Nat),
    n ≤ a → n + f = a + f' → (∀ i, n ≤ i → i < a → K i = true) →
    mexFrom K f n = mexFrom K f' a := by
  intro f
  induction f with
  | zero =>
    intro n a f' h1 h2 _
    have hna : n = a := by omega
    have hf : f' = 0 := by omega
    rw [hna, hf]
  | succ g ih =>
    intro n a f' h1 h2 h3
    rcases Nat.eq_or_lt_of_le h1 with h | h
    · have hf : g + 1 = f' := by omega
      rw [h, hf]
    · have hstep : mexFrom K (g + 1) n = mexFrom K g (n + 1) := by
        show (if K n = true then mexFrom K g (n + 1) else n) = mexFrom K g (n + 1)
        rw [if_pos (h3 n (Nat.le_refl n) h)]
      rw [hstep]
      exact ih (n + 1) a f' (show n + 1 ≤ a by omega)
        (show n + 1 + g = a + f' by omega)
        (fun i hi hia => h3 i (by omega) hia)

theorem bufFind_none_of_no_key (k : Nat) : ∀ b : Buf,
    (∀ kv ∈ b, kv.1 ≠ k) → bufFind k b = none := by
  intro b
  induction b with
  | nil => intro _; rfl
  | cons kv0 t ih =>
    obtain ⟨k', v⟩ := kv0
    intro h
    unfold bufFind
    rw [if_neg (fun hc => (h (k', v) (List.mem_cons_self _ _)) hc.symm)]
    exact ih (fun kv hm => h kv (List.mem_cons_of_mem _ hm))

theorem bufFind_erase_self (e : Nat) (b : Buf) (hs : SortedBuf b)
    {v : List Nat} (hf : bufFind e b = some v) :
    bufFind e (bufErase e b) = none :=
  bufFind_none_of_no_key e (bufErase e b) (fun kv hm => bufErase_key_ne hs hf kv hm)

theorem bufFind_erase_ne (e k : Nat) (hne : k ≠ e) : ∀ b : Buf,
    bufFind k (bufErase e b) = bufFind k b := by
  intro b
  induction b with
  | nil => rfl
  | cons kv0 t ih =>
    obtain ⟨k', v⟩ := kv0
    unfold bufErase
    by_cases h : e = k'
    · rw [if_pos h]
      unfold bufFind
      rw [if_neg (by omega)]
      cases t <;> rfl
    · rw [if_neg h]
      unfold bufFind
      split
      · rfl
      · exact ih

theorem bufFind_insert_self (k : Nat) (v : List Nat) : ∀ b : Buf,
    bufFind k (bufInsert k v b) = some v := by
  intro b
  induction b with
  | nil => simp [bufInsert, bufFind]
  | cons kv0 t ih =>
    obtain ⟨k', v'⟩ := kv0
    unfold bufInsert
    split
    · unfold bufFind
      rw [if_pos rfl]
    · split
      · unfold bufFind
        rw [if_pos rfl]
      · rename_i h1 h2
        unfold bufFind
        rw [if_neg h2]
        exact ih

theorem bufFind_insert_ne (k k' : Nat) (v : List Nat) (hne : k' ≠ k) : ∀ b : Buf,
    bufFind k' (bufInsert k v b) = bufFind k' b := by
  intro b
  induction b with
  | nil =>
    unfold bufInsert bufFind
    rw [if_neg hne]
    rfl
  | cons kv0 t ih =>
    obtain ⟨k0, v0⟩ := kv0
    unfold bufInsert
    split
    · unfold bufFind
      rw [if_neg hne]
      rfl
    · split
      · rename_i h1 h2
        unfold bufFind
        rw [if_neg hne, if_neg (by omega)]
      · unfold bufFind
        split
        · rfl
        · exact ih

theorem drainGo_spec (pay : Nat → List Nat) :
    ∀ (fuel : Nat) (K : Nat → Bool) (e : Nat) (buf : Buf) (out : List Nat),
      (∀ k, K k = true → k ≤ 50) →
      buf.length < fuel →
      SortedBuf buf →
      (∀ k, bufFind k buf = if K k = true then some (pay k) else none) →
      (drainGo fuel e buf out).1 = mexFrom K (52 - e) e ∧
      (drainGo fuel e buf out).2.2 =
        out ++ (List.range' e (mexFrom K (52 - e) e - e)).flatMap pay ∧
      SortedBuf (drainGo fuel e buf out).2.1 ∧
      (∀ k, bufFind k (drainGo fuel e buf out).2.1 =
        if K k = true ∧ ¬(e ≤ k ∧ k < mexFrom K (52 - e) e)
        then some (pay k) else none) := by
  intro fuel
  induction fuel with
  | zero =>
    intro K e buf out _ hfuel
    omega
  | succ n ih =>
    intro K e buf out hK50 hfuel hs hchar
    unfold drainGo
    cases hKe : K e with
    | false =>
      have hfind : bufFind e buf = none := by
        rw [hchar e, if_neg (by simp [hKe])]
      rw [hfind]
      have hmex : mexFrom K (52 - e) e = e := mexFrom_stop K _ e hKe
      rw [hmex]
      refine ⟨rfl, by simp, hs, ?_⟩
      intro k
      rw [hchar k]
      exact if_congr
        (Iff.intro (fun hk => ⟨hk, by omega⟩) (fun hk => hk.1)) rfl rfl
    | true =>
      have hfind : bufFind e buf = some (pay e) := by
        rw [hchar e, if_pos hKe]
      rw [hfind]
      have he50 : e ≤ 50 := hK50 e hKe
      have hmexstep : mexFrom K (52 - e) e = mexFrom K (51 - e) (e + 1) := by
        have h52 : 52 - e = (51 - e) + 1 := by omega
        rw [h52]
        show (if K e = true then mexFrom K (51 - e) (e + 1) else e) =
          mexFrom K (51 - e) (e + 1)
        rw [if_pos hKe]
      have hchar' : ∀ k, bufFind k (bufErase e buf) =
          if (K k && decide (k ≠ e)) = true then some (pay k) else none := by
        intro k
        by_cases hk : k = e
        · rw [hk]
          rw [bufFind_erase_self e buf hs hfind]
          rw [if_neg (by simp)]
        · rw [bufFind_erase_ne e k hk buf, hchar k]
          exact if_congr (by simp [hk]) rfl rfl
      have hK50' : ∀ k, (K k && decide (k ≠ e)) = true → k ≤ 50 := by
        intro k hk
        rw [Bool.and_eq_true] at hk
        exact hK50 k hk.1
      have hlen' : (bufErase e buf).length < n := by
        have := bufErase_length_lt hfind
        omega
      obtain ⟨c1, c2, c3, c4⟩ := ih (fun k => K k && decide (k ≠ e)) (e + 1)
        (bufErase e buf) (out ++ pay e) hK50' hlen' (sortedBuf_erase e buf hs) hchar'
      have hcongr : mexFrom (fun k => K k && decide (k ≠ e)) (52 - (e + 1)) (e + 1) =
          mexFrom K (51 - e) (e + 1) := by
        have h51 : 52 - (e + 1) = 51 - e := by omega
        rw [h51]
        exact mexFrom_congr' _ K (51 - e) (e + 1)
          (fun m hm => by
            have : m ≠ e := by omega
            simp [this])
      rw [hcongr] at c1 c2 c4
      have hgap_ge : e + 1 ≤ mexFrom K (51 - e) (e + 1) := mexFrom_ge K _ _
      refine ⟨by rw [c1, hmexstep], ?_, c3, ?_⟩
      · rw [c2, hmexstep]
        have harith : mexFrom K (51 - e) (e + 1) - e =
            (mexFrom K (51 - e) (e + 1) - (e + 1)) + 1 := by omega
        rw [harith, List.range'_succ, List.flatMap_cons, List.append_assoc]
      · intro k
        rw [c4 k, hmexstep]
        refine if_congr ?_ rfl rfl
        by_cases hk : k = e
        · rw [hk]
          simp only [Bool.and_eq_true, decide_eq_true_eq]
          constructor
          · intro hc
            exact absurd rfl hc.1.2
          · intro hc
            exact absurd ⟨Nat.le_refl e, by omega⟩ hc.2
        · simp only [Bool.and_eq_true, decide_eq_true_eq]
          constructor
          · intro hc
            refine ⟨hc.1.1, ?_⟩
            intro hr
            exact hc.2 ⟨by omega, hr.2⟩
          · intro hc
            refine ⟨⟨hc.1, hk⟩, ?_⟩
            intro hr
            exact hc.2 ⟨by omega, hr.2⟩

theorem sorted_bounded_length (b : Buf) (hs : SortedBuf b)
    (hb : ∀ kv ∈ b, kv.1 ≤ 50) : b.length ≤ 51 := by
  have hnd : (bufKeys b).Nodup :=
    List.Pairwise.imp (fun h => Nat.ne_of_lt h) (sortedBuf_keys b hs)
  have hcard : (bufKeys b).toFinset.card = (bufKeys b).length :=
    List.toFinset_card_of_nodup hnd
  have hsub : (bufKeys b).toFinset ⊆ Finset.range 51 := by
    intro x hx
    obtain ⟨kv, hkv, hfst⟩ := List.mem_map.mp (List.mem_toFinset.mp hx)
    rw [Finset.mem_range, ← hfst]
    exact Nat.lt_succ_of_le (hb kv hkv)
  have hlen : (bufKeys b).length = b.length := List.length_map b Prod.fst
  have := Finset.card_le_card hsub
  rw [hcard, hlen, Finset.card_range] at this
  exact this

theorem pbp_spec (pay : Nat → List Nat) (K : Nat → Bool) (st : ReceiverState)
    (hK50 : ∀ k, K k = true → k ≤ 50)
    (hs : SortedBuf st.packet_buffer)
    (hchar : ∀ k, bufFind k st.packet_buffer =
      if K k = true then some (pay k) else none)
    (hmax : 51 ≤ st.max_buffer_size) :
    (processBufferedPackets st).expected_seq =
      mexFrom K (52 - st.expected_seq) st.expected_seq ∧
    (processBufferedPackets st).received_data =
      st.received_data ++ (List.range' st.expected_seq
        (mexFrom K (52 - st.expected_seq) st.expected_seq - st.expected_seq)).flatMap pay ∧
    SortedBuf (processBufferedPackets st).packet_buffer ∧
    (∀ k, bufFind k (processBufferedPackets st).packet_buffer =
      if K k = true ∧ ¬(st.expected_seq ≤ k ∧
        k < mexFrom K (52 - st.expected_seq) st.expected_seq)
      then some (pay k) else none) := by
  obtain ⟨c1, c2, c3, c4⟩ := drainGo_spec pay (st.packet_buffer.length + 1) K
    st.expected_seq st.packet_buffer st.received_data hK50
    (Nat.lt_succ_self _) hs hchar
  have hble : (drainGo (st.packet_buffer.length + 1) st.expected_seq
      st.packet_buffer st.received_data).2.1.length ≤ 51 := by
    apply sorted_bounded_length _ c3
    intro kv hkv
    have hne := bufFind_ne_none_of_mem (show (kv.1, kv.2) ∈ _ from hkv)
    rw [c4 kv.1] at hne
    by_cases hK : K kv.1 = true
    · exact hK50 kv.1 hK
    · exfalso
      exact hne (by rw [if_neg (fun hc => hK hc.1)])
  unfold processBufferedPackets
  dsimp only
  rw [if_neg (by omega)]
  exact ⟨c1, c2, c3, c4⟩

theorem handler_mkDataFrame (st : ReceiverState) (seq : Nat) (payload : List Nat)
    (hlen : payload.length < 65536) :
    notification_handler st (mkDataFrame seq payload) =
      handleValidated st (seq % 4294967296) payload := by
  unfold notification_handler
  rw [show mkDataFrame seq payload =
    mkFrameRaw seq payload.length (crc16_ccitt payload) payload from rfl]
  rw [if_neg (by rw [mkFrameRaw_length]; omega)]
  rw [u32le_mkFrameRaw, u16le_mkFrameRaw_len, u16le_mkFrameRaw_crc, mkFrameRaw_drop8]
  rw [Nat.mod_eq_of_lt hlen, Nat.mod_eq_of_lt (crc16_ccitt_lt payload)]
  dsimp only
  rw [List.take_length]
  rw [if_neg ?hEOF]
  case hEOF =>
    rintro ⟨h0, hc⟩
    rw [List.length_eq_zero.mp h0] at hc
    exact absurd hc (by decide)
  rw [if_neg (by simp), if_neg (by simp)]

theorem range_flatMap_split (pay : Nat → List Nat) (a b : Nat) (hab : a ≤ b) :
    (List.range b).flatMap pay =
      (List.range a).flatMap pay ++ (List.range' a (b - a)).flatMap pay := by
  rw [← List.flatMap_append]
  have h : List.range a ++ List.range' a (b - a) = List.range b := by
    rw [List.range_eq_range', List.range_eq_range']
    have h2 := List.range'_append 0 a (b - a) 1
    simp only [Nat.zero_add, Nat.one_mul] at h2
    rw [h2]
    congr 1
    omega
  rw [h]

theorem mexFrom_ge_of (K : Nat → Bool) : ∀ (f n m : Nat),
    n ≤ m → m ≤ n + f → (∀ i, n ≤ i → i < m → K i = true) →
    m ≤ mexFrom K f n := by
  intro f
  induction f with
  | zero =>
    intro n m h1 h2 _
    have h3 : mexFrom K 0 n = n := rfl
    omega
  | succ g ih =>
    intro n m h1 h2 h3
    rcases Nat.eq_or_lt_of_le h1 with h | h
    · rw [← h]
      exact mexFrom_ge K _ _
    · have hstep : mexFrom K (g + 1) n = mexFrom K g (n + 1) := by
        show (if K n = true then mexFrom K g (n + 1) else n) = mexFrom K g (n + 1)
        rw [if_pos (h3 n (Nat.le_refl n) h)]
      rw [hstep]
      exact ih (n + 1) m h (by omega) (fun i hi him => h3 i (by omega) him)

theorem mexL_le (seen : List Nat) (hseen : ∀ x ∈ seen, x ≤ 50) :
    mexL seen ≤ 51 := by
  apply mexFrom_le_not _ 52 0 51 (Nat.zero_le _) (by omega)
  exact decide_eq_false (fun hm => absurd (hseen 51 hm) (by omega))

theorem mexL_not_mem (seen : List Nat) (hseen : ∀ x ∈ seen, x ≤ 50) :
    mexL seen ∉ seen := by
  have h := mexL_le seen hseen
  have h2 : mexFrom (fun n => decide (n ∈ seen)) 52 0 < 0 + 52 := by
    unfold mexL at h
    omega
  exact of_decide_eq_false (mexFrom_not (fun n => decide (n ∈ seen)) 52 0 h2)

theorem mexL_below (seen : List Nat) :
    ∀ i, i < mexL seen → i ∈ seen :=
  fun i hi => of_decide_eq_true (mexFrom_below _ 52 0 i (Nat.zero_le i) hi)

theorem mexL_append_mem (seen : List Nat) (s : Nat) (hs : s ∈ seen) :
    mexL (seen ++ [s]) = mexL seen := by
  unfold mexL
  apply mexFrom_congr'
  intro m _
  apply decide_eq_decide.mpr
  simp only [List.mem_append, List.mem_singleton]
  exact Iff.intro (fun h => h.elim id (fun he => he ▸ hs)) Or.inl

theorem seenK_append_mem (seen : List Nat) (s : Nat) (hs : s ∈ seen) :
    ∀ k, seenK (seen ++ [s]) k = seenK seen k := by
  intro k
  unfold seenK
  rw [mexL_append_mem seen s hs]
  congr 1
  apply decide_eq_decide.mpr
  simp only [List.mem_append, List.mem_singleton]
  exact Iff.intro (fun h => h.elim id (fun he => he ▸ hs)) Or.inl

theorem mexL_append_big (seen : List Nat) (s : Nat)
    (hall : ∀ x ∈ seen, x ≤ 50) (hgt : mexL seen < s) :
    mexL (seen ++ [s]) = mexL seen := by
  have hb := mexL_le seen hall
  apply Nat.le_antisymm
  · apply mexFrom_le_not _ 52 0 (mexL seen) (Nat.zero_le _) (by omega)
    apply decide_eq_false
    intro hm
    rcases List.mem_append.mp hm with h | h
    · exact mexL_not_mem seen hall h
    · rw [List.mem_singleton] at h
      omega
  · apply mexFrom_ge_of _ 52 0 (mexL seen) (Nat.zero_le _) (by omega)
    intro i _ hi
    exact decide_eq_true (List.mem_append_left _ (mexL_below seen i hi))

theorem seenK_append_big (seen : List Nat) (s : Nat)
    (hall : ∀ x ∈ seen, x ≤ 50) (hgt : mexL seen < s) :
    ∀ k, k ≠ s → seenK (seen ++ [s]) k = seenK seen k := by
  intro k hk
  unfold seenK
  rw [mexL_append_big seen s hall hgt]
  congr 1
  apply decide_eq_decide.mpr
  simp only [List.mem_append, List.mem_singleton]
  exact Iff.intro (fun h => h.elim id (fun he => absurd he hk)) Or.inl

theorem mexL_append_self (seen : List Nat) (hall : ∀ x ∈ seen, x ≤ 50) :
    mexL (seen ++ [mexL seen]) =
      mexFrom (seenK seen) (52 - (mexL seen + 1)) (mexL seen + 1) := by
  have hb := mexL_le seen hall
  have h1 : mexL (seen ++ [mexL seen]) =
      mexFrom (fun n => decide (n ∈ seen ++ [mexL seen]))
        (52 - (mexL seen + 1)) (mexL seen + 1) := by
    apply mexFrom_split _ 52 0 (mexL seen + 1) (52 - (mexL seen + 1))
      (Nat.zero_le _) (by omega)
    intro i _ hi
    apply decide_eq_true
    rcases Nat.lt_or_ge i (mexL seen) with h | h
    · exact List.mem_append_left _ (mexL_below seen i h)
    · have hieq : i = mexL seen := by omega
      exact List.mem_append_right _ (by simp [hieq])
  rw [h1]
  apply mexFrom_congr'
  intro m hm
  show decide (m ∈ seen ++ [mexL seen]) = seenK seen m
  unfold seenK
  rw [decide_eq_true (show mexL seen ≤ m by omega), Bool.and_true]
  apply decide_eq_decide.mpr
  simp only [List.mem_append, List.mem_singleton]
  exact Iff.intro (fun h => h.elim id (fun he => absurd he (by omega))) Or.inl

theorem c1_mem_preserve (pay : Nat → List Nat) (seen : List Nat) (s : Nat)
    (st : ReceiverState) (hs : s ∈ seen) (hinv : C1Inv pay seen st) :
    C1Inv pay (seen ++ [s]) st := by
  obtain ⟨he, hr, hsort, hchar, hmax⟩ := hinv
  have hmx := mexL_append_mem seen s hs
  exact ⟨by rw [he, hmx], by rw [hr, hmx], hsort,
    fun k => by rw [hchar k, seenK_append_mem seen s hs k], hmax⟩

theorem c1_inorder (pay : Nat → List Nat) (seen : List Nat) (st' : ReceiverState)
    (hall : ∀ x ∈ seen, x ≤ 50)
    (he : st'.expected_seq = mexL seen + 1)
    (hr : st'.received_data =
      (List.range (mexL seen)).flatMap pay ++ pay (mexL seen))
    (hsort : SortedBuf st'.packet_buffer)
    (hchar : ∀ k, bufFind k st'.packet_buffer =
      if seenK seen k = true then some (pay k) else none)
    (hmax : st'.max_buffer_size = 100) :
    C1Inv pay (seen ++ [mexL seen]) (processBufferedPackets st') := by
  have hb := mexL_le seen hall
  have hK50 : ∀ k, seenK seen k = true → k ≤ 50 := by
    intro k hk
    unfold seenK at hk
    rw [Bool.and_eq_true] at hk
    exact hall k (of_decide_eq_true hk.1)
  obtain ⟨p1, p2, p3, p4⟩ :=
    pbp_spec pay (seenK seen) st' hK50 hsort hchar (by omega)
  have hM : mexL (seen ++ [mexL seen]) =
      mexFrom (seenK seen) (52 - st'.expected_seq) st'.expected_seq := by
    rw [mexL_append_self seen hall, he]
  have hMge : mexL seen + 1 ≤
      mexFrom (seenK seen) (52 - st'.expected_seq) st'.expected_seq := by
    rw [← he]
    exact mexFrom_ge _ _ _
  refine ⟨?_, ?_, p3, ?_, ?_⟩
  · rw [p1, hM]
  · rw [p2, hr, hM]
    rw [range_flatMap_split pay (mexL seen + 1)
      (mexFrom (seenK seen) (52 - st'.expected_seq) st'.expected_seq) hMge]
    rw [List.range_succ, List.flatMap_append]
    simp only [List.flatMap_cons, List.flatMap_nil, List.append_nil,
      List.append_assoc]
    rw [he]
  · intro k
    rw [p4 k]
    have hiff : (seenK seen k = true ∧
        ¬(st'.expected_seq ≤ k ∧
          k < mexFrom (seenK seen) (52 - st'.expected_seq) st'.expected_seq)) ↔
        seenK (seen ++ [mexL seen]) k = true := by
      constructor
      · rintro ⟨hk, hnot⟩
        have hk' := hk
        unfold seenK at hk'
        rw [Bool.and_eq_true] at hk'
        have hkm : k ∈ seen := of_decide_eq_true hk'.1
        have hkge : mexL seen ≤ k := of_decide_eq_true hk'.2
        have hkne : k ≠ mexL seen := fun hc => mexL_not_mem seen hall (hc ▸ hkm)
        have hMle : mexFrom (seenK seen) (52 - st'.expected_seq)
            st'.expected_seq ≤ k := by
          by_contra hc
          exact hnot ⟨by omega, by omega⟩
        unfold seenK
        rw [Bool.and_eq_true]
        exact ⟨decide_eq_true (List.mem_append_left _ hkm),
          decide_eq_true (by rw [hM]; exact hMle)⟩
      · intro hk
        unfold seenK at hk
        rw [Bool.and_eq_true] at hk
        have hkm : k ∈ seen ++ [mexL seen] := of_decide_eq_true hk.1
        have hkge : mexL (seen ++ [mexL seen]) ≤ k := of_decide_eq_true hk.2
        rw [hM] at hkge
        have hkne : k ≠ mexL seen := by omega
        have hkm' : k ∈ seen := by
          rcases List.mem_append.mp hkm with h | h
          · exact h
          · rw [List.mem_singleton] at h
            exact absurd h hkne
        refine ⟨?_, ?_⟩
        · unfold seenK
          rw [Bool.and_eq_true]
          exact ⟨decide_eq_true hkm', decide_eq_true (by omega)⟩
        · intro hc
          omega
    exact if_congr hiff rfl rfl
  · rw [pbp_max]
    exact hmax

theorem c1_step (pay : Nat → List Nat) (seen : List Nat) (s : Nat)
    (st : ReceiverState)
    (hall : ∀ x ∈ seen, x ≤ 50) (hs50 : s ≤ 50)
    (hinv : C1Inv pay seen st) :
    C1Inv pay (seen ++ [s]) (handleValidated st s (pay s)) := by
  obtain ⟨he, hr, hsort, hchar, hmax⟩ := hinv
  have hb := mexL_le seen hall
  unfold handleValidated
  dsimp only
  split
  · rename_i hlt
    have hlt' : s < st.expected_seq := hlt
    exact c1_mem_preserve pay seen s _ (mexL_below seen s (by omega))
      ⟨he, hr, hsort, hchar, hmax⟩
  · rename_i hnlt
    have hnlt' : ¬ s < st.expected_seq := hnlt
    have hge : mexL seen ≤ s := by omega
    have hcw : ∀ x : ReceiverState, C1Inv pay (seen ++ [s]) x →
        C1Inv pay (seen ++ [s]) (creditWrap x) := by
      intro x hx
      obtain ⟨a1, a2, a3, a4, a5⟩ := hx
      refine ⟨?_, ?_, ?_, ?_, ?_⟩
      · rw [creditWrap_expected]
        exact a1
      · rw [creditWrap_received]
        exact a2
      · rw [creditWrap_buffer]
        exact a3
      · intro k
        rw [creditWrap_buffer]
        exact a4 k
      · rw [creditWrap_max]
        exact a5
    apply hcw
    unfold handleOrdering
    dsimp only
    split
    · rename_i hseq
      have hseq2 : s = st.expected_seq := hseq
      have hseq' : s = mexL seen := by omega
      subst hseq'
      apply c1_inorder pay seen _ hall
      · show st.expected_seq + 1 = mexL seen + 1
        omega
      · show st.received_data ++ pay (mexL seen) = _
        rw [hr]
      · exact hsort
      · exact hchar
      · exact hmax
    · rename_i hne
      have hne' : ¬ s = st.expected_seq := hne
      split
      · rename_i hdup
        have hdup' : bufMem s st.packet_buffer = true := hdup
        unfold bufMem at hdup'
        rw [hchar s] at hdup'
        have hsK : seenK seen s = true := by
          by_cases hK : seenK seen s = true
          · exact hK
          · rw [if_neg hK] at hdup'
            simp at hdup'
        have hsm : s ∈ seen := by
          unfold seenK at hsK
          rw [Bool.and_eq_true] at hsK
          exact of_decide_eq_true hsK.1
        exact c1_mem_preserve pay seen s _ hsm ⟨he, hr, hsort, hchar, hmax⟩
      · rename_i hnodup
        split
        · rename_i hgap
          exfalso
          have hgap' : s - st.expected_seq > 50 := hgap
          omega
        · have hgt : mexL seen < s := by omega
          refine ⟨?_, ?_, ?_, ?_, ?_⟩
          · show st.expected_seq = _
            rw [he, mexL_append_big seen s hall hgt]
          · show st.received_data = _
            rw [hr, mexL_append_big seen s hall hgt]
          · exact bufInsert_sorted s (pay s) st.packet_buffer hsort
          · intro k
            show bufFind k (bufInsert s (pay s) st.packet_buffer) = _
            by_cases hk : k = s
            · subst hk
              have hsK2 : seenK (seen ++ [k]) k = true := by
                unfold seenK
                rw [Bool.and_eq_true]
                refine ⟨decide_eq_true (List.mem_append_right _ (by simp)), ?_⟩
                exact decide_eq_true (by
                  rw [mexL_append_big seen k hall hgt]
                  omega)
              rw [bufFind_insert_self, if_pos hsK2]
            · rw [bufFind_insert_ne s k (pay s) hk]
              rw [hchar k, seenK_append_big seen s hall hgt k hk]
          · exact hmax

theorem c1_base (pay : Nat → List Nat) : C1Inv pay [] initState := by
  have hmex : mexL [] = 0 := mexFrom_stop _ 52 0 (by decide)
  refine ⟨?_, ?_, ?_, ?_, rfl⟩
  · show 0 = mexL []
    rw [hmex]
  · show ([] : List Nat) = (List.range (mexL [])).flatMap pay
    rw [hmex]
    rfl
  · exact List.Pairwise.nil
  · intro k
    have h : seenK [] k = false := by
      unfold seenK
      rw [decide_eq_false (List.not_mem_nil k), Bool.false_and]
    show (none : Option (List Nat)) = _
    rw [h]
    rfl

theorem c1_fold (pay : Nat → List Nat) (hpay : ∀ s, (pay s).length < 65536) :
    ∀ (rest seen : List Nat) (st : ReceiverState),
      (∀ x ∈ seen, x ≤ 50) → (∀ x ∈ rest, x ≤ 50) →
      C1Inv pay seen st →
      C1Inv pay (seen ++ rest)
        (rest.foldl (fun acc s => notification_handler acc (mkDataFrame s (pay s))) st) := by
  intro rest
  induction rest with
  | nil =>
    intro seen st _ _ hinv
    simpa using hinv
  | cons s rest ih =>
    intro seen st hseen hrest hinv
    have hs50 : s ≤ 50 := hrest s (List.mem_cons_self _ _)
    have hmod : s % 4294967296 = s := Nat.mod_eq_of_lt (by omega)
    have hstep : notification_handler st (mkDataFrame s (pay s)) =
        handleValidated st s (pay s) := by
      rw [handler_mkDataFrame st s (pay s) (hpay s), hmod]
    have hmain := ih (seen ++ [s]) (handleValidated st s (pay s))
      (by
        intro x hx
        rcases List.mem_append.mp hx with h | h
        · exact hseen x h
        · rw [List.mem_singleton] at h
          omega)
      (fun x hx => hrest x (List.mem_cons_of_mem _ hx))
      (c1_step pay seen s st hseen hs50 hinv)
    have hfold : (s :: rest).foldl
        (fun acc t => notification_handler acc (mkDataFrame t (pay t))) st =
        rest.foldl (fun acc t => notification_handler acc (mkDataFrame t (pay t)))
          (handleValidated st s (pay s)) := by
      rw [List.foldl_cons, hstep]
    rw [hfold]
    rw [show seen ++ s :: rest = (seen ++ [s]) ++ rest by
      rw [List.append_assoc, List.singleton_append]]
    exact hmain

/-- C1: for a freshly reset session fed any finite sequence of well-formed
data frames whose sequence numbers stay within the skip-free window
(every seq at most 50), the accumulated output equals the concatenation,
in ascending sequence order, of the payloads of the contiguous prefix of
sequence numbers 0, 1, 2, ... that have all arrived, regardless of
arrival order and duplication.  (Without the window restriction the
claim fails: a gap larger than 50 triggers the skip of receive.py lines
236-242, which abandons the contiguous prefix; see the counterexample.) -/
theorem reorder_correct_amended (arr : List Nat) (pay : Nat → List Nat)
    (hseq : ∀ s ∈ arr, s ≤ 50) (hpay : ∀ s, (pay s).length < 65536) :
    (arr.foldl (fun acc s => notification_handler acc (mkDataFrame s (pay s)))
      initState).received_data = specOutput arr pay := by
  have h := c1_fold pay hpay arr [] initState (by intro x hx; cases hx) hseq
    (c1_base pay)
  rw [List.nil_append] at h
  exact h.2.1

/-- Witness for C1: the frames 2, 0, 1 delivered out of order yield the
payloads of 0, 1, 2 in order, matching the reference output. -/
theorem reorder_correct_amended_witness :
    (∀ s ∈ ([2, 0, 1] : List Nat), s ≤ 50) ∧
    (∀ s : Nat, ([7] : List Nat).length < 65536) ∧
    (([2, 0, 1] : List Nat).foldl
        (fun acc s => notification_handler acc (mkDataFrame s [7]))
        initState).received_data = specOutput [2, 0, 1] (fun _ => [7]) :=
  ⟨by decide, fun _ => by decide,
    reorder_correct_amended [2, 0, 1] (fun _ => [7]) (by decide)
      (fun _ => (by decide : ([7] : List Nat).length < 65536))⟩

/-- Counterexample to C1 as stated: a single frame with sequence number
60 on a fresh session opens a gap larger than 50, so the skip logic of
receive.py lines 236-242 advances expected_seq to 60 and emits its
payload even though the contiguous prefix 0, 1, 2, ... has not arrived;
the reference output for this arrival set is empty. -/
theorem reorder_prefix_cex :
    (notification_handler initState (mkDataFrame 60 [7])).received_data ≠
      specOutput [60] (fun _ => [7]) := by
  decide
